import Mathlib

/-!
Verification of the MCC 118 channel-4 ring-buffer logger
(`src/channel4_ringbuffer_logger.c`) against its natural-language
specification.

The C program is shallowly embedded: bytes are `ℕ` (values < 256 in the
program), byte arrays are functions `ℕ → ℕ` indexed below the array size,
`size_t` values are `ℕ` (all theorems stay inside the regime where the C
`size_t` arithmetic neither overflows nor underflows, which covers every
call the program makes), and the blocking behaviour of
`pthread_cond_wait` / `pthread_mutex_lock` is made explicit with `Option`
(`none` = the call never returns to its caller: a blocked wait with no
producer, or a self-deadlock on a non-recursive mutex).
-/
/-! ## Ring buffer (`ring_buffer_t`, lines 57-68) -/
/-- Embedding of `ring_buffer_t`.  `buffer` is the malloc'd byte array
(only indices `< size` are ever used); `consumer_done` is declared by the
C struct but never read by the program. -/
structure RingBuffer where
  size : ℕ
  buffer : ℕ → ℕ
  write_pos : ℕ
  read_pos : ℕ
  available : ℕ
  producer_done : Bool
  consumer_done : Bool

/-- Model of `memcpy(buf + dst, data + srcOff, n)` where `buf` is the ring array and
the source is the byte list `data`. -/
def memcpy_in (buf : ℕ → ℕ) (dst : ℕ) (data : List ℕ) (srcOff n : ℕ) : ℕ → ℕ :=
  fun j => if dst ≤ j ∧ j < dst + n then data.getD (srcOff + (j - dst)) 0 else buf j

/-- First phase of `ring_buffer_write` (lines 136-144): when free space is
smaller than the input length, drop the oldest `len - free_space` bytes by
advancing the read cursor and shrinking `available`. -/
def rb_evict (rb : RingBuffer) (len : ℕ) : RingBuffer :=
  if rb.size - rb.available < len then
    { rb with
      read_pos := (rb.read_pos + (len - (rb.size - rb.available))) % rb.size,
      available := rb.available - (len - (rb.size - rb.available)) }
  else rb

/-- Second phase of `ring_buffer_write` (lines 146-166): copy
`write_len = min(len, free_space)` input bytes at the write cursor in at
most two `memcpy` pieces around the wrap point, then advance the write
cursor and `available`.  Returns the new state and the C function's return
value `write_len`. -/
def rb_copy (rb1 : RingBuffer) (data : List ℕ) : RingBuffer × ℕ :=
  let len := data.length
  let free_space := rb1.size - rb1.available
  let write_len := if len < free_space then len else free_space
  if 0 < write_len then
    let first_part := if rb1.write_pos + write_len ≤ rb1.size then write_len
                      else rb1.size - rb1.write_pos
    let buf1 := memcpy_in rb1.buffer rb1.write_pos data 0 first_part
    let buf2 := if first_part < write_len then
                  memcpy_in buf1 0 data first_part (write_len - first_part)
                else buf1
    ({ rb1 with
        buffer := buf2,
        write_pos := (rb1.write_pos + write_len) % rb1.size,
        available := rb1.available + write_len }, write_len)
  else
    (rb1, write_len)

/-- Model of `ring_buffer_write` (lines 132-167): non-blocking; evict-oldest phase
followed by the copy phase. -/
def ring_buffer_write (rb : RingBuffer) (data : List ℕ) : RingBuffer × ℕ :=
  rb_copy (rb_evict rb data.length) data

/-- Model of `ring_buffer_read` (lines 170-203).  The C function blocks in
`pthread_cond_wait` while `available == 0 && !producer_done`; that case is
`none`.  Otherwise it returns the new state together with the bytes copied
out (the C return value is the length of that list). -/
def ring_buffer_read (rb : RingBuffer) (len : ℕ) : Option (RingBuffer × List ℕ) :=
  if rb.available = 0 ∧ rb.producer_done = false then
    none
  else if rb.available = 0 then
    some (rb, [])
  else
    let read_len := if len < rb.available then len else rb.available
    let first_part := if rb.read_pos + read_len ≤ rb.size then read_len
                      else rb.size - rb.read_pos
    let out := (List.range read_len).map
      (fun i => if i < first_part then rb.buffer (rb.read_pos + i)
                else rb.buffer (i - first_part))
    some ({ rb with
              read_pos := (rb.read_pos + read_len) % rb.size,
              available := rb.available - read_len }, out)

/-- Model of `init_ring_buffer` (lines 98-116).  `junk` is the indeterminate content
of the freshly malloc'd array. -/
def init_ring_buffer (size : ℕ) (junk : ℕ → ℕ) : RingBuffer :=
  { size := size, buffer := junk, write_pos := 0, read_pos := 0,
    available := 0, producer_done := false, consumer_done := false }

/-- The unread bytes of the buffer, oldest first: `available` bytes
starting at the read cursor, wrapping modulo `size`. -/
def RingBuffer.contents (rb : RingBuffer) : List ℕ :=
  (List.range rb.available).map (fun i => rb.buffer ((rb.read_pos + i) % rb.size))

/-- Structural invariant of the ring buffer, established by
`init_ring_buffer` and preserved by both operations. -/
def RingBuffer.WF (rb : RingBuffer) : Prop :=
  0 < rb.size ∧ rb.available ≤ rb.size ∧ rb.read_pos < rb.size ∧
    rb.write_pos = (rb.read_pos + rb.available) % rb.size

instance (rb : RingBuffer) : Decidable rb.WF := by
  unfold RingBuffer.WF
  infer_instance

/-- The consumer-free fold of a sequence of producer writes. -/
def write_all (rb : RingBuffer) (ws : List (List ℕ)) : RingBuffer :=
  ws.foldl (fun b w => (ring_buffer_write b w).1) rb

/-! ## Chunk files (`write_chunk_file`, lines 480-546) -/
/-- Little-endian serialisation of an unsigned `k`-byte integer, as laid
down by `fwrite` of a `uintN_t` value on the little-endian target. -/
def leBytes : ℕ → ℕ → List ℕ
  | 0, _ => []
  | k + 1, n => n % 256 :: leBytes k (n / 256)

/-- Little-endian read of `k` bytes at offset `off` (missing bytes read
as 0). -/
def readLE : List ℕ → ℕ → ℕ → ℕ
  | _, _, 0 => 0
  | bs, off, k + 1 => bs.getD off 0 + 256 * readLE bs (off + 1) k

/-- The bytes of the 4-byte magic literal `"SDAT"`. -/
def magicBytes : List ℕ := [83, 68, 65, 84]

/-- The fixed-layout chunk header (lines 511-529), fields in `fwrite`
order, all little-endian: magic, version (= 1), device_id (= 0), boot_id,
seq_start, sample_rate_hz, record_size (= 8), sample_count,
sensor_time_start, sensor_time_end, payload_crc32 (= 0, reserved).  The C
function takes one `time(NULL)` reading and writes it to both timestamp
fields. -/
def chunk_header_bytes (boot_id seq_start sample_rate sample_count t_start t_end : ℕ) :
    List ℕ :=
  magicBytes ++ leBytes 2 1 ++ leBytes 4 0 ++ leBytes 8 boot_id ++
    leBytes 8 seq_start ++ leBytes 4 sample_rate ++ leBytes 2 8 ++
    leBytes 4 sample_count ++ leBytes 8 t_start ++ leBytes 8 t_end ++ leBytes 4 0

/-- The byte content of a chunk file produced by `write_chunk_file`:
header followed immediately by `fwrite(samples, 8, sample_count)` — the
first `sample_count` 8-byte records of the chunk buffer. -/
def write_chunk_bytes (boot_id seq_start : ℕ) (samples : List ℕ)
    (sample_count sample_rate now : ℕ) : List ℕ :=
  chunk_header_bytes boot_id seq_start sample_rate sample_count now now ++
    ((samples.take sample_count).map (leBytes 8)).flatten

/-- Parsed header of a chunk file. -/
structure ChunkHeader where
  magic : List ℕ
  version : ℕ
  device_id : ℕ
  boot_id : ℕ
  seq_start : ℕ
  sample_rate_hz : ℕ
  record_size : ℕ
  sample_count : ℕ
  sensor_time_start : ℕ
  sensor_time_end : ℕ
  payload_crc32 : ℕ
deriving DecidableEq

/-- Reparse a chunk file: read every header field at its fixed offset,
check the magic and that the payload holds exactly `sample_count` 8-byte
records, and decode the records. -/
def parse_chunk_file (bs : List ℕ) : Option (ChunkHeader × List ℕ) :=
  if 56 ≤ bs.length then
    let hdr : ChunkHeader :=
      { magic := bs.take 4,
        version := readLE bs 4 2,
        device_id := readLE bs 6 4,
        boot_id := readLE bs 10 8,
        seq_start := readLE bs 18 8,
        sample_rate_hz := readLE bs 26 4,
        record_size := readLE bs 30 2,
        sample_count := readLE bs 32 4,
        sensor_time_start := readLE bs 36 8,
        sensor_time_end := readLE bs 44 8,
        payload_crc32 := readLE bs 52 4 }
    if hdr.magic = magicBytes ∧ bs.length - 56 = hdr.sample_count * 8 then
      some (hdr, (List.range hdr.sample_count).map (fun i => readLE bs (56 + 8 * i) 8))
    else none
  else none

/-! ## Chunk file names (lines 486-492) -/
set_option linter.unusedVariables false in
/-- The temporary name, format `"%s/chunk_%llu_.bin.part"` (line 487).
`boot_id` (the global `g_boot_id`) is in scope in `write_chunk_file` but
the format string uses only the output directory and `seq_start`. -/
def chunk_filename_part (output_dir : String) (boot_id seq_start : ℕ) : String :=
  output_dir ++ "/chunk_" ++ Nat.repr seq_start ++ "_.bin.part"

set_option linter.unusedVariables false in
/-- The final name, format `"%s/chunk_%llu_.bin"` (line 490). -/
def chunk_filename_final (output_dir : String) (boot_id seq_start : ℕ) : String :=
  output_dir ++ "/chunk_" ++ Nat.repr seq_start ++ "_.bin"

/-! ## Chunk sizing (consumer lines 703-719) -/
/-- Model of `CHUNK_DURATION_SEC` (line 42). -/
def CHUNK_DURATION_SEC : ℚ := 2

/-- Model of `samples_per_chunk = (uint32_t)(current_rate * CHUNK_DURATION_SEC)`
(line 707): the C cast truncates the (nonnegative, in-range) product
toward zero. -/
def samples_per_chunk_of_rate (rate : ℚ) : ℕ :=
  (⌊rate * CHUNK_DURATION_SEC⌋).toNat

/-- Modelled from the spec: `samplesPerChunk = round(rate × chunkDurationSeconds)`
with round-to-nearest (§3, Data Model).  Stated only to compare with the
code's truncating computation `samples_per_chunk_of_rate`. -/
def spec_samplesPerChunk (rate : ℚ) : ℤ :=
  round (rate * CHUNK_DURATION_SEC)

/-! ## Chunk consumer (`consumer_thread`, lines 686-775) -/
/-- One chunk handed to `write_chunk_file`, together with the
success/failure of that call (`ok`; the filesystem outcome is an input of
the model). -/
structure CommitRecord where
  seq_start : ℕ
  sample_count : ℕ
  rate : ℚ
  ok : Bool
deriving DecidableEq

/-- Consumer-local state (lines 690-693) together with the global
`g_seq_counter` that the consumer updates. -/
structure ConsumerState where
  samples_collected : ℕ
  samples_per_chunk : ℕ
  current_rate : ℚ
  hasBuffer : Bool
  seq_counter : ℕ
deriving DecidableEq

/-- Lines 704-719: on a rate change (or before the first allocation) the
chunk buffer is (re)allocated for the new rate and the in-progress count
is reset to zero; a partially filled previous buffer is discarded.
(Allocation is modelled as succeeding; on `malloc` failure the C thread
exits.) -/
def rate_adjusted (cs : ConsumerState) (requested_rate : ℚ) : ConsumerState :=
  if requested_rate ≠ cs.current_rate ∨ cs.hasBuffer = false then
    { cs with
        current_rate := requested_rate,
        samples_per_chunk := samples_per_chunk_of_rate requested_rate,
        hasBuffer := true,
        samples_collected := 0 }
  else cs

/-- One iteration of the consumer loop body (lines 697-759): take the
control snapshot (`requested_rate`, `should_capture`), adjust to the rate,
then — when capturing or mid-chunk — pull the remaining needed bytes from
the ring buffer and, once the chunk is full, commit it.  `write_ok` is the
outcome of `write_chunk_file` when a commit happens.  `none` means the
iteration blocked inside `ring_buffer_read`. -/
def consumer_iteration (cs : ConsumerState) (rb : RingBuffer)
    (requested_rate : ℚ) (should_capture write_ok : Bool) :
    Option (ConsumerState × RingBuffer × Option CommitRecord) :=
  let cs1 := rate_adjusted cs requested_rate
  if should_capture = true ∨ 0 < cs1.samples_collected then
    match ring_buffer_read rb ((cs1.samples_per_chunk - cs1.samples_collected) * 8) with
    | none => none
    | some (rb1, out) =>
        let cs2 := { cs1 with
          samples_collected := cs1.samples_collected + out.length / 8 }
        if cs1.samples_per_chunk ≤ cs2.samples_collected then
          some
            ({ cs2 with
                seq_counter := if write_ok = true then
                    cs2.seq_counter + cs1.samples_per_chunk
                  else cs2.seq_counter,
                samples_collected := 0 },
              rb1,
              some { seq_start := cs2.seq_counter,
                     sample_count := cs1.samples_per_chunk,
                     rate := cs2.current_rate, ok := write_ok })
        else
          some (cs2, rb1, none)
  else
    some (cs1, rb, none)

/-- Lines 762-768: the shutdown flush of a non-empty partial chunk.  The C
code ignores the return value of `write_chunk_file` here and advances
`g_seq_counter` unconditionally. -/
def consumer_final_flush (cs : ConsumerState) (write_ok : Bool) :
    ConsumerState × Option CommitRecord :=
  if cs.hasBuffer = true ∧ 0 < cs.samples_collected then
    ({ cs with seq_counter := cs.seq_counter + cs.samples_collected },
      some { seq_start := cs.seq_counter, sample_count := cs.samples_collected,
             rate := cs.current_rate, ok := write_ok })
  else (cs, none)

/-- A run of consumer iterations, collecting the commit records in
order. -/
def consumer_run : ConsumerState → RingBuffer → List (ℚ × Bool × Bool) →
    Option (ConsumerState × RingBuffer × List CommitRecord)
  | cs, rb, [] => some (cs, rb, [])
  | cs, rb, (rr, sc, w) :: rest =>
    match consumer_iteration cs rb rr sc w with
    | none => none
    | some (cs1, rb1, orec) =>
      match consumer_run cs1 rb1 rest with
      | none => none
      | some (cs2, rb2, recs) => some (cs2, rb2, orec.toList ++ recs)

/-! ## Control channel (`handle_command`, lines 281-362) -/
/-- The replies the control handler can send. -/
inductive Reply where
  | okStart : Reply
  | okStop : Reply
  | statusReply : Bool → ℚ → ℕ → ℕ → Reply
  | okSetRate : ℚ → Reply
  | errInvalidRate : Reply
  | errNoValue : Reply
  | errUnknown : List Char → Reply
deriving DecidableEq

/-- The shared control state `{g_capture_enabled, g_scan_rate}` together
with `g_seq_counter` and the (non-recursive) `g_state_mutex`. -/
structure ControlGlobals where
  capture_enabled : Bool
  scan_rate : ℚ
  seq_counter : ℕ
  state_mutex_held : Bool
deriving DecidableEq

/-- Model of `pthread_mutex_lock` on the default (non-recursive) `g_state_mutex`:
acquiring it while the calling thread already holds it never returns
(`none`). -/
def lock_state_mutex (g : ControlGlobals) : Option ControlGlobals :=
  if g.state_mutex_held = true then none
  else some { g with state_mutex_held := true }

/-- Model of `pthread_mutex_unlock` on `g_state_mutex`. -/
def unlock_state_mutex (g : ControlGlobals) : ControlGlobals :=
  { g with state_mutex_held := false }

/-- Model of `send_status` (lines 259-278): reads the buffered byte count (under
the ring buffer's own mutex, passed in as `ring_avail_bytes`), then takes
`g_state_mutex` for the capture/rate snapshot; `g_seq_counter` is read
without a lock.  Reports `buffer_samples = bytes / 8`. -/
def send_status (g : ControlGlobals) (ring_avail_bytes : ℕ) :
    Option (ControlGlobals × Reply) :=
  match lock_state_mutex g with
  | none => none
  | some g1 =>
      some (unlock_state_mutex g1,
        .statusReply g1.capture_enabled g1.scan_rate (ring_avail_bytes / 8)
          g1.seq_counter)

/-- Lines 291-295: strip trailing `'\n'`, `'\r'` and `' '`. -/
def strip_trailing (s : List Char) : List Char :=
  (s.reverse.dropWhile (fun c => c = '\n' || c = '\r' || c = ' ')).reverse

/-- Lines 297-304: split at the first space; the argument starts after it,
with further leading spaces skipped.  No space means no argument. -/
def split_at_space : List Char → List Char × Option (List Char)
  | [] => ([], none)
  | c :: rest =>
      if c = ' ' then ([], some (rest.dropWhile (fun d => d = ' ')))
      else
        let p := split_at_space rest
        (c :: p.1, p.2)

/-- Lines 307-311: uppercase the keyword, byte-wise ASCII. -/
def to_upper (c : Char) : Char :=
  if 'a' ≤ c ∧ c ≤ 'z' then Char.ofNat (c.toNat - 97 + 65) else c

/-- The dispatch of `handle_command` (lines 313-361): the whole dispatch
runs while holding `g_state_mutex`; `atof` is the C library's parse of the
argument string. -/
def dispatch_command (atof : List Char → ℚ) (cmd : List Char)
    (arg : Option (List Char)) (g : ControlGlobals) (ring_avail_bytes : ℕ) :
    Option (ControlGlobals × Reply) :=
  match lock_state_mutex g with
  | none => none
  | some g1 =>
      if cmd = "START".toList then
        some (unlock_state_mutex { g1 with capture_enabled := true }, .okStart)
      else if cmd = "STOP".toList then
        some (unlock_state_mutex { g1 with capture_enabled := false }, .okStop)
      else if cmd = "STATUS".toList then
        match send_status g1 ring_avail_bytes with
        | none => none
        | some (g2, r) => some (unlock_state_mutex g2, r)
      else if cmd = "SET_RATE".toList then
        match arg with
        | some a =>
            if a ≠ [] then
              if 0 < atof a ∧ atof a ≤ 100000 then
                some (unlock_state_mutex { g1 with scan_rate := atof a },
                  .okSetRate (atof a))
              else some (unlock_state_mutex g1, .errInvalidRate)
            else some (unlock_state_mutex g1, .errNoValue)
        | none => some (unlock_state_mutex g1, .errNoValue)
      else some (unlock_state_mutex g1, .errUnknown cmd)

/-- Model of `handle_command` (lines 281-362): trim, split, uppercase the keyword,
dispatch.  (The 256-byte `strncpy` truncation is not modelled; the control
thread reads at most 255 bytes per connection.) -/
def handle_command (atof : List Char → ℚ) (command : List Char)
    (g : ControlGlobals) (ring_avail_bytes : ℕ) : Option (ControlGlobals × Reply) :=
  let stripped := strip_trailing command
  let p := split_at_space stripped
  dispatch_command atof (p.1.map to_upper) p.2 g ring_avail_bytes

/-! ## Theorems -/

theorem contents_length (rb : RingBuffer) : rb.contents.length = rb.available := by
  simp [RingBuffer.contents]

/-! ## Index arithmetic for the circular copies -/
theorem range_map_drop {α : Type} (f : ℕ → α) (n k : ℕ) (h : k ≤ n) :
    ((List.range n).map f).drop k = (List.range (n - k)).map (fun i => f (k + i)) := by
  have hn : n = k + (n - k) := by omega
  rw [hn, List.range_add, List.map_append, List.drop_append_of_le_length (by simp),
      List.map_map]
  have h1 : List.drop k (List.map f (List.range k)) = [] := by
    apply List.drop_eq_nil_of_le
    simp
  rw [h1, List.nil_append]
  have h3 : k + (n - k) - k = n - k := by omega
  rw [h3]
  rfl

theorem map_getD_range (data : List ℕ) :
    (List.range data.length).map (fun i => data.getD i 0) = data := by
  induction data with
  | nil => rfl
  | cons d ds ih =>
      rw [List.length_cons, List.range_succ_eq_map, List.map_cons, List.map_map]
      have h2 : (List.range ds.length).map ((fun i => (d :: ds).getD i 0) ∘ Nat.succ)
          = (List.range ds.length).map (fun i => ds.getD i 0) := by
        apply List.map_congr_left
        intro a _
        simp [Function.comp, List.getD_cons_succ]
      rw [h2, ih]
      rfl

/-- Two positions strictly inside the unread window and strictly inside the
window being written never collide modulo the ring size. -/
theorem ring_index_ne (size rp avail wlen i t : ℕ)
    (hsum : avail + wlen ≤ size) (hi : i < avail) (ht : t < wlen) :
    (rp + i) % size ≠ (rp + (avail + t)) % size := by
  intro h
  have h1 : i ≡ avail + t [MOD size] := Nat.ModEq.add_left_cancel' rp h
  have h2 : i % size = (avail + t) % size := h1
  rw [Nat.mod_eq_of_lt (by omega), Nat.mod_eq_of_lt (by omega)] at h2
  omega

/-- Effect of the (up to) two `memcpy` calls of `ring_buffer_write`: the
`wlen` ring positions starting at the write cursor receive the input bytes
in order, and the `avail` unread positions starting at the read cursor are
untouched. -/
theorem copy_spec (buf : ℕ → ℕ) (data : List ℕ) (size rp avail wlen wp fp : ℕ)
    (buf2 : ℕ → ℕ)
    (hsz : 0 < size) (hrp : rp < size) (hsum : avail + wlen ≤ size)
    (hwp : wp = (rp + avail) % size)
    (hfp : fp = if wp + wlen ≤ size then wlen else size - wp)
    (hb2 : buf2 = if fp < wlen then
        memcpy_in (memcpy_in buf wp data 0 fp) 0 data fp (wlen - fp)
      else memcpy_in buf wp data 0 fp) :
    (∀ i, i < wlen → buf2 ((wp + i) % size) = data.getD i 0) ∧
    (∀ i, i < avail → buf2 ((rp + i) % size) = buf ((rp + i) % size)) := by
  have hwps : wp < size := by rw [hwp]; exact Nat.mod_lt _ hsz
  have key : ∀ t, t < wlen → ∀ i, i < avail → (rp + i) % size ≠ (wp + t) % size := by
    intro t ht i hi h
    have h2 : (wp + t) % size = (rp + (avail + t)) % size := by
      rw [hwp, Nat.mod_add_mod, Nat.add_assoc]
    exact ring_index_ne size rp avail wlen i t hsum hi ht (h.trans h2)
  constructor
  · intro i hi
    by_cases hc : wp + wlen ≤ size
    · have hfp' : fp = wlen := by rw [hfp, if_pos hc]
      have hnb : ¬ fp < wlen := by omega
      rw [hb2, if_neg hnb]
      have hj : (wp + i) % size = wp + i := Nat.mod_eq_of_lt (by omega)
      rw [hj]
      show memcpy_in buf wp data 0 fp (wp + i) = data.getD i 0
      rw [memcpy_in, if_pos ⟨Nat.le_add_right _ _, by omega⟩]
      congr 1
      omega
    · have hfp' : fp = size - wp := by rw [hfp, if_neg hc]
      have hflt : fp < wlen := by omega
      rw [hb2, if_pos hflt]
      by_cases hif : i < fp
      · have hj : (wp + i) % size = wp + i := Nat.mod_eq_of_lt (by omega)
        rw [hj]
        show memcpy_in (memcpy_in buf wp data 0 fp) 0 data fp (wlen - fp) (wp + i)
            = data.getD i 0
        rw [memcpy_in]
        rw [if_neg (by omega)]
        rw [memcpy_in, if_pos ⟨by omega, by omega⟩]
        congr 1
        omega
      · have hj : (wp + i) % size = i - fp := by
          rw [Nat.mod_eq_sub_mod (by omega), Nat.mod_eq_of_lt (by omega)]
          omega
        rw [hj]
        show memcpy_in (memcpy_in buf wp data 0 fp) 0 data fp (wlen - fp) (i - fp)
            = data.getD i 0
        rw [memcpy_in, if_pos ⟨by omega, by omega⟩]
        congr 1
        omega
  · intro i hi
    have hjlt : (rp + i) % size < size := Nat.mod_lt _ hsz
    have hfpw : fp ≤ wlen := by rw [hfp]; split <;> omega
    have hwpfp : wp + fp ≤ size := by rw [hfp]; split <;> omega
    have hr1 : ¬ (wp ≤ (rp + i) % size ∧ (rp + i) % size < wp + fp) := by
      rintro ⟨ha, hb⟩
      refine key ((rp + i) % size - wp) (by omega) i hi ?_
      have ht : wp + ((rp + i) % size - wp) = (rp + i) % size := by omega
      rw [ht, Nat.mod_eq_of_lt hjlt]
    by_cases hflt : fp < wlen
    · have hfp' : fp = size - wp := by
        by_cases hc : wp + wlen ≤ size
        · rw [hfp, if_pos hc] at hflt
          omega
        · rw [hfp, if_neg hc]
      have hr2 : ¬ (0 ≤ (rp + i) % size ∧ (rp + i) % size < 0 + (wlen - fp)) := by
        rintro ⟨-, hb⟩
        refine key (fp + (rp + i) % size) (by omega) i hi ?_
        have : wp + (fp + (rp + i) % size) = size + (rp + i) % size := by omega
        rw [this, Nat.add_mod_left, Nat.mod_eq_of_lt hjlt]
      rw [hb2, if_pos hflt]
      show memcpy_in (memcpy_in buf wp data 0 fp) 0 data fp (wlen - fp) ((rp + i) % size)
          = buf ((rp + i) % size)
      rw [memcpy_in, if_neg hr2, memcpy_in, if_neg hr1]
    · rw [hb2, if_neg hflt]
      show memcpy_in buf wp data 0 fp ((rp + i) % size) = buf ((rp + i) % size)
      rw [memcpy_in, if_neg hr1]

/-! ## Characterisation of `ring_buffer_write` -/
theorem rb_copy_nil (rb : RingBuffer) : rb_copy rb [] = (rb, 0) := by
  unfold rb_copy
  rcases Nat.eq_zero_or_pos (rb.size - rb.available) with h | h
  · simp [h]
  · simp [h, Nat.not_lt_zero]

/-- The copy phase when the input fits in the free space: the input is
appended to the unread contents. -/
theorem copy_phase_spec (rb : RingBuffer) (data : List ℕ)
    (hsz : 0 < rb.size) (hrp : rb.read_pos < rb.size)
    (hwpos : rb.write_pos = (rb.read_pos + rb.available) % rb.size)
    (hfit : rb.available + data.length ≤ rb.size) :
    (rb_copy rb data).2 = data.length ∧
    (rb_copy rb data).1.size = rb.size ∧
    (rb_copy rb data).1.producer_done = rb.producer_done ∧
    (rb_copy rb data).1.consumer_done = rb.consumer_done ∧
    (rb_copy rb data).1.read_pos = rb.read_pos ∧
    (rb_copy rb data).1.available = rb.available + data.length ∧
    (rb_copy rb data).1.write_pos
      = (rb.read_pos + (rb.available + data.length)) % rb.size ∧
    (rb_copy rb data).1.contents = rb.contents ++ data := by
  rcases Nat.eq_zero_or_pos data.length with h0 | h0
  · have hnil : data = [] := List.eq_nil_of_length_eq_zero h0
    subst hnil
    rw [rb_copy_nil]
    refine ⟨rfl, rfl, rfl, rfl, rfl, rfl, ?_, ?_⟩
    · rw [hwpos]
      simp
    · show rb.contents = rb.contents ++ ([] : List ℕ)
      rw [List.append_nil]
  · have hev : ¬ (rb.size - rb.available < data.length) := by omega
    have hwl : (if data.length < rb.size - rb.available then data.length
                else rb.size - rb.available) = data.length := by
      split <;> omega
    obtain ⟨hw1, hw2⟩ := copy_spec rb.buffer data rb.size rb.read_pos rb.available
      data.length rb.write_pos _ _ hsz hrp hfit hwpos rfl rfl
    simp only [rb_copy]
    rw [hwl, if_pos h0]
    refine ⟨rfl, rfl, rfl, rfl, rfl, rfl, ?_, ?_⟩
    · rw [hwpos, Nat.mod_add_mod, Nat.add_assoc]
    · simp only [RingBuffer.contents]
      rw [List.range_add, List.map_append, List.map_map]
      congr 1
      · apply List.map_congr_left
        intro a ha
        exact hw2 a (List.mem_range.mp ha)
      · calc (List.range data.length).map
              ((fun i => (if (if rb.write_pos + data.length ≤ rb.size then data.length
                    else rb.size - rb.write_pos) < data.length then
                  memcpy_in (memcpy_in rb.buffer rb.write_pos data 0
                    (if rb.write_pos + data.length ≤ rb.size then data.length
                      else rb.size - rb.write_pos)) 0 data
                    (if rb.write_pos + data.length ≤ rb.size then data.length
                      else rb.size - rb.write_pos)
                    (data.length - (if rb.write_pos + data.length ≤ rb.size then data.length
                      else rb.size - rb.write_pos))
                else
                  memcpy_in rb.buffer rb.write_pos data 0
                    (if rb.write_pos + data.length ≤ rb.size then data.length
                      else rb.size - rb.write_pos)) ((rb.read_pos + i) % rb.size))
                ∘ fun x => rb.available + x)
            = (List.range data.length).map (fun a => data.getD a 0) := by
              apply List.map_congr_left
              intro a ha
              show _ = data.getD a 0
              have hix : (rb.read_pos + (rb.available + a)) % rb.size
                  = (rb.write_pos + a) % rb.size := by
                rw [hwpos, Nat.mod_add_mod, Nat.add_assoc]
              simp only [Function.comp]
              rw [hix]
              exact hw1 a (List.mem_range.mp ha)
        _ = data := map_getD_range data

/-- Full characterisation of `ring_buffer_write` for inputs no longer than
the capacity (every call the program makes writes at most 8000 bytes into
the 4 MiB buffer).  `data.length - (rb.size - rb.available)` is the number
of evicted bytes (0 when the input fits in the free space). -/
theorem ring_buffer_write_spec (rb : RingBuffer) (data : List ℕ)
    (hwf : rb.WF) (hlen : data.length ≤ rb.size) :
    (ring_buffer_write rb data).2 = data.length ∧
    (ring_buffer_write rb data).1.WF ∧
    (ring_buffer_write rb data).1.size = rb.size ∧
    (ring_buffer_write rb data).1.producer_done = rb.producer_done ∧
    (ring_buffer_write rb data).1.read_pos
      = (rb.read_pos + (data.length - (rb.size - rb.available))) % rb.size ∧
    (ring_buffer_write rb data).1.available
      = rb.available - (data.length - (rb.size - rb.available)) + data.length ∧
    (ring_buffer_write rb data).1.contents
      = rb.contents.drop (data.length - (rb.size - rb.available)) ++ data := by
  obtain ⟨hsz, hav, hrp, hwpos⟩ := hwf
  by_cases hev : rb.size - rb.available < data.length
  · have hevict : rb_evict rb data.length =
        { rb with
            read_pos := (rb.read_pos + (data.length - (rb.size - rb.available))) % rb.size,
            available := rb.available - (data.length - (rb.size - rb.available)) } := by
      unfold rb_evict
      rw [if_pos hev]
    have hW : ring_buffer_write rb data =
        rb_copy
          { rb with
              read_pos := (rb.read_pos + (data.length - (rb.size - rb.available))) % rb.size,
              available := rb.available - (data.length - (rb.size - rb.available)) }
          data := by
      rw [ring_buffer_write, hevict]
    have hwpos2 : rb.write_pos =
        ((rb.read_pos + (data.length - (rb.size - rb.available))) % rb.size
          + (rb.available - (data.length - (rb.size - rb.available)))) % rb.size := by
      rw [Nat.mod_add_mod, hwpos]
      congr 1
      omega
    obtain ⟨hc1, hc2, hc3, hc4, hc5, hc6, hc7, hc8⟩ :=
      copy_phase_spec
        { rb with
            read_pos := (rb.read_pos + (data.length - (rb.size - rb.available))) % rb.size,
            available := rb.available - (data.length - (rb.size - rb.available)) }
        data hsz (Nat.mod_lt _ hsz) hwpos2 (by show rb.available - _ + _ ≤ rb.size; omega)
    rw [hW]
    refine ⟨hc1, ?_, hc2, hc3, hc5, ?_, ?_⟩
    · refine ⟨by rw [hc2]; exact hsz, ?_, ?_, ?_⟩
      · rw [hc6, hc2]
        show rb.available - _ + _ ≤ rb.size
        omega
      · rw [hc5, hc2]
        exact Nat.mod_lt _ hsz
      · rw [hc7, hc5, hc6, hc2]
    · rw [hc6]
    · rw [hc8]
      congr 1
      show (List.range (rb.available - (data.length - (rb.size - rb.available)))).map
          (fun i => rb.buffer
            (((rb.read_pos + (data.length - (rb.size - rb.available))) % rb.size + i) % rb.size))
        = _
      rw [RingBuffer.contents, range_map_drop _ _ _ (by omega)]
      apply List.map_congr_left
      intro a _
      rw [Nat.mod_add_mod, Nat.add_assoc]
  · have hevict : rb_evict rb data.length = rb := by
      unfold rb_evict
      rw [if_neg hev]
    have hW : ring_buffer_write rb data = rb_copy rb data := by
      rw [ring_buffer_write, hevict]
    obtain ⟨hc1, hc2, hc3, hc4, hc5, hc6, hc7, hc8⟩ :=
      copy_phase_spec rb data hsz hrp hwpos (by omega)
    have hk : data.length - (rb.size - rb.available) = 0 := by omega
    rw [hW]
    refine ⟨hc1, ?_, hc2, hc3, ?_, ?_, ?_⟩
    · refine ⟨by rw [hc2]; exact hsz, ?_, ?_, ?_⟩
      · rw [hc6, hc2]
        omega
      · rw [hc5, hc2]
        exact hrp
      · rw [hc7, hc5, hc6, hc2]
    · rw [hc5, hk, Nat.add_zero, Nat.mod_eq_of_lt hrp]
    · rw [hc6, hk]
      omega
    · rw [hc8, hk, List.drop_zero]

/-! ## Characterisation of `ring_buffer_read` -/
/-- Behaviour of `ring_buffer_read` on a well-formed state: blocks when empty without
end-of-stream; returns 0 bytes and an unchanged state when empty at
end-of-stream; otherwise copies the `min(len, available)` oldest bytes out
in FIFO order, advancing the read cursor and shrinking `available`. -/
theorem ring_buffer_read_spec (rb : RingBuffer) (len : ℕ) (hwf : rb.WF) :
    (rb.available = 0 ∧ rb.producer_done = false → ring_buffer_read rb len = none) ∧
    (rb.available = 0 ∧ rb.producer_done = true → ring_buffer_read rb len = some (rb, [])) ∧
    (0 < rb.available →
      ring_buffer_read rb len = some
        ({ rb with
            read_pos := (rb.read_pos + min len rb.available) % rb.size,
            available := rb.available - min len rb.available },
          rb.contents.take (min len rb.available))) := by
  obtain ⟨hsz, hav, hrp, hwpos⟩ := hwf
  refine ⟨?_, ?_, ?_⟩
  · rintro ⟨h1, h2⟩
    unfold ring_buffer_read
    rw [if_pos ⟨h1, h2⟩]
  · rintro ⟨h1, h2⟩
    unfold ring_buffer_read
    rw [if_neg (by simp [h1, h2]), if_pos h1]
  · intro hpos
    have hne : ¬ (rb.available = 0 ∧ rb.producer_done = false) := by
      rintro ⟨h1, -⟩
      omega
    have hne2 : ¬ rb.available = 0 := by omega
    have hmin : (if len < rb.available then len else rb.available)
        = min len rb.available := by
      rcases Nat.lt_or_ge len rb.available with h | h
      · rw [if_pos h, min_eq_left (by omega)]
      · rw [if_neg (by omega), min_eq_right (by omega)]
    have hm : min len rb.available ≤ rb.available := Nat.min_le_right _ _
    have hout : (List.range (min len rb.available)).map
        (fun i => if i < (if rb.read_pos + min len rb.available ≤ rb.size
                          then min len rb.available
                          else rb.size - rb.read_pos)
                  then rb.buffer (rb.read_pos + i)
                  else rb.buffer (i - (if rb.read_pos + min len rb.available ≤ rb.size
                                       then min len rb.available
                                       else rb.size - rb.read_pos)))
        = rb.contents.take (min len rb.available) := by
      rw [RingBuffer.contents, ← List.map_take, List.take_range]
      have hr : min len rb.available ⊓ rb.available = min len rb.available := by omega
      rw [hr]
      apply List.map_congr_left
      intro a ha
      have halt : a < min len rb.available := List.mem_range.mp ha
      by_cases hc : rb.read_pos + min len rb.available ≤ rb.size
      · rw [if_pos hc, if_pos halt, Nat.mod_eq_of_lt (by omega)]
      · rw [if_neg hc]
        by_cases hfc : a < rb.size - rb.read_pos
        · rw [if_pos hfc, Nat.mod_eq_of_lt (by omega)]
        · rw [if_neg hfc]
          have h2 : (rb.read_pos + a) % rb.size = a - (rb.size - rb.read_pos) := by
            rw [Nat.mod_eq_sub_mod (by omega), Nat.mod_eq_of_lt (by omega)]
            omega
          rw [h2]
    simp only [ring_buffer_read]
    rw [if_neg hne, if_neg hne2, hmin, hout]

/-! ## Claims about the ring buffer -/
/-- C1: every `ring_buffer_write` call (input no longer than the capacity,
as at every call site of the program) accepts the entire input — the
returned count equals the input length; when the input exceeds the free
space `capacity - available` by `k = len - free` bytes, exactly the `k`
oldest unread bytes are evicted (read cursor advanced by `k`, `available`
decremented by `k`) before the new data is appended; and `available` ends
at `capacity` exactly when the write alone fills the buffer. -/
theorem ring_buffer_write_accepts_and_drops_oldest (rb : RingBuffer) (data : List ℕ)
    (hwf : rb.WF) (hlen : data.length ≤ rb.size) :
    (ring_buffer_write rb data).2 = data.length ∧
    (ring_buffer_write rb data).1.read_pos
      = (rb.read_pos + (data.length - (rb.size - rb.available))) % rb.size ∧
    (ring_buffer_write rb data).1.available
      = rb.available - (data.length - (rb.size - rb.available)) + data.length ∧
    (ring_buffer_write rb data).1.contents
      = rb.contents.drop (data.length - (rb.size - rb.available)) ++ data ∧
    (rb.size ≤ rb.available + data.length →
      (ring_buffer_write rb data).1.available = rb.size) := by
  obtain ⟨h1, h2, h3, h4, h5, h6, h7⟩ := ring_buffer_write_spec rb data hwf hlen
  obtain ⟨hsz, hav, -, -⟩ := hwf
  refine ⟨h1, h5, h6, h7, ?_⟩
  intro hfill
  rw [h6]
  omega

theorem ring_buffer_write_accepts_and_drops_oldest_witness :
    ((⟨4, fun _ => 0, 2, 0, 2, false, false⟩ : RingBuffer)).WF ∧
    ([1, 2, 3] : List ℕ).length ≤ 4 ∧
    ((ring_buffer_write ⟨4, fun _ => 0, 2, 0, 2, false, false⟩ [1, 2, 3]).2 = 3 ∧
      (ring_buffer_write ⟨4, fun _ => 0, 2, 0, 2, false, false⟩ [1, 2, 3]).1.read_pos = 1 ∧
      (ring_buffer_write ⟨4, fun _ => 0, 2, 0, 2, false, false⟩ [1, 2, 3]).1.available = 4 ∧
      (ring_buffer_write ⟨4, fun _ => 0, 2, 0, 2, false, false⟩ [1, 2, 3]).1.contents
        = [0, 1, 2, 3]) :=
  ⟨by decide, by decide, by
    obtain ⟨h1, h2, h3, h4, -⟩ :=
      ring_buffer_write_accepts_and_drops_oldest
        ⟨4, fun _ => 0, 2, 0, 2, false, false⟩ [1, 2, 3] (by decide) (by decide)
    exact ⟨h1, h2, h3, h4⟩⟩

theorem write_all_spec (ws : List (List ℕ)) (rb : RingBuffer)
    (hwf : rb.WF)
    (hfit : rb.available + (ws.map List.length).sum ≤ rb.size) :
    (write_all rb ws).WF ∧
    (write_all rb ws).size = rb.size ∧
    (write_all rb ws).producer_done = rb.producer_done ∧
    (write_all rb ws).available = rb.available + (ws.map List.length).sum ∧
    (write_all rb ws).contents = rb.contents ++ ws.flatten := by
  induction ws generalizing rb with
  | nil => exact ⟨hwf, rfl, rfl, by simp [write_all], by simp [write_all]⟩
  | cons w ws ih =>
      have hs : ((w :: ws).map List.length).sum
          = w.length + (ws.map List.length).sum := by simp
      have hwf2 := hwf
      obtain ⟨hsz, hav, hrp, hwpos⟩ := hwf2
      obtain ⟨h1, h2, h3, h4, h5, h6, h7⟩ :=
        ring_buffer_write_spec rb w hwf (by omega)
      have hk : w.length - (rb.size - rb.available) = 0 := by omega
      rw [hk] at h6 h7
      rw [List.drop_zero] at h7
      obtain ⟨g1, g2, g3, g4, g5⟩ :=
        ih (ring_buffer_write rb w).1 h2 (by rw [h6, h3]; omega)
      rw [show write_all rb (w :: ws) = write_all (ring_buffer_write rb w).1 ws from rfl]
      refine ⟨g1, by rw [g2, h3], by rw [g3, h4], ?_, ?_⟩
      · rw [g4, h6, hs]
        omega
      · rw [g5, h7, List.flatten_cons, List.append_assoc]

/-- C2: starting from the freshly initialised buffer, for every sequence of
writes whose total length is smaller than the capacity, with no intervening
reads, a read of at least that total length returns exactly the
concatenation of the written bytes in write order. -/
theorem ring_buffer_fifo_roundtrip (cap maxLen : ℕ) (junk : ℕ → ℕ)
    (ws : List (List ℕ))
    (hsum : (ws.map List.length).sum < cap)
    (hpos : 0 < (ws.map List.length).sum)
    (hmax : (ws.map List.length).sum ≤ maxLen) :
    (ring_buffer_read (write_all (init_ring_buffer cap junk) ws) maxLen).map Prod.snd
      = some ws.flatten := by
  have hwf0 : (init_ring_buffer cap junk).WF := by
    refine ⟨?_, ?_, ?_, ?_⟩
    · show 0 < cap
      omega
    · exact Nat.zero_le _
    · show 0 < cap
      omega
    · show (0 : ℕ) = (0 + 0) % cap
      simp
  obtain ⟨g1, g2, g3, g4, g5⟩ :=
    write_all_spec ws (init_ring_buffer cap junk) hwf0
      (by simp [init_ring_buffer]; omega)
  have hc0 : (init_ring_buffer cap junk).contents = [] := rfl
  rw [hc0, List.nil_append] at g5
  have ha0 : (init_ring_buffer cap junk).available = 0 := rfl
  rw [ha0, Nat.zero_add] at g4
  obtain ⟨-, -, hread⟩ :=
    ring_buffer_read_spec (write_all (init_ring_buffer cap junk) ws) maxLen g1
  specialize hread (by rw [g4]; omega)
  have hmineq : min maxLen (write_all (init_ring_buffer cap junk) ws).available
      = (write_all (init_ring_buffer cap junk) ws).available := by
    rw [g4]
    omega
  have ht : (write_all (init_ring_buffer cap junk) ws).contents.take
      (min maxLen (write_all (init_ring_buffer cap junk) ws).available)
      = ws.flatten := by
    rw [hmineq, ← contents_length, List.take_length, g5]
  rw [hread]
  show some ((write_all (init_ring_buffer cap junk) ws).contents.take
      (min maxLen (write_all (init_ring_buffer cap junk) ws).available)) = some ws.flatten
  rw [ht]

theorem ring_buffer_fifo_roundtrip_witness :
    (([[1], [2, 3]] : List (List ℕ)).map List.length).sum < 5 ∧
    0 < (([[1], [2, 3]] : List (List ℕ)).map List.length).sum ∧
    (([[1], [2, 3]] : List (List ℕ)).map List.length).sum ≤ 4 ∧
    (ring_buffer_read (write_all (init_ring_buffer 5 (fun _ => 0)) [[1], [2, 3]]) 4).map
        Prod.snd = some [1, 2, 3] :=
  ⟨by decide, by decide, by decide,
    ring_buffer_fifo_roundtrip 5 4 (fun _ => 0) [[1], [2, 3]]
      (by decide) (by decide) (by decide)⟩

/-- C5 counterexample: a read with `maxLength = 0` on a non-empty buffer
whose producer is still active returns 0 bytes, so "read returns 0 iff the
buffer is empty and the producer-done flag is set" fails as stated. -/
theorem read_len_zero_counterexample :
    (ring_buffer_read (⟨4, fun _ => 0, 1, 0, 1, false, false⟩ : RingBuffer) 0).map
        Prod.snd = some [] ∧
    (⟨4, fun _ => 0, 1, 0, 1, false, false⟩ : RingBuffer).available ≠ 0 ∧
    (⟨4, fun _ => 0, 1, 0, 1, false, false⟩ : RingBuffer).producer_done = false :=
  ⟨rfl, by decide, rfl⟩

/-- C5 (amended): for `maxLength > 0`, `ring_buffer_read` returns 0 bytes
iff the buffer is empty and the producer-done flag is set; in that state
the buffer is unchanged, so every subsequent read also returns 0 (and an
empty buffer without end-of-stream blocks instead); otherwise it returns
`min(maxLength, available)` bytes in FIFO order, advancing the read cursor
and decrementing `available` by the returned length. -/
theorem ring_buffer_read_characterization (rb : RingBuffer) (len : ℕ)
    (hwf : rb.WF) (hlen : 0 < len) :
    ((∃ rb2, ring_buffer_read rb len = some (rb2, ([] : List ℕ)))
        ↔ rb.available = 0 ∧ rb.producer_done = true) ∧
    (rb.available = 0 ∧ rb.producer_done = true →
      ring_buffer_read rb len = some (rb, [])) ∧
    (rb.available = 0 ∧ rb.producer_done = false → ring_buffer_read rb len = none) ∧
    (0 < rb.available →
      ring_buffer_read rb len = some
        ({ rb with
            read_pos := (rb.read_pos + min len rb.available) % rb.size,
            available := rb.available - min len rb.available },
          rb.contents.take (min len rb.available))) := by
  obtain ⟨hb, he, hp⟩ := ring_buffer_read_spec rb len hwf
  refine ⟨⟨?_, ?_⟩, he, hb, hp⟩
  · rintro ⟨rb2, hr⟩
    rcases Nat.eq_zero_or_pos rb.available with h0 | h0
    · cases hd : rb.producer_done with
      | false =>
          rw [hb ⟨h0, hd⟩] at hr
          cases hr
      | true => exact ⟨h0, rfl⟩
    · rw [hp h0] at hr
      simp only [Option.some.injEq, Prod.mk.injEq] at hr
      obtain ⟨-, h2⟩ := hr
      have h3 := congrArg List.length h2
      rw [List.length_take, contents_length] at h3
      simp only [List.length_nil] at h3
      exact absurd h3 (by omega)
  · rintro h
    exact ⟨rb, he h⟩

theorem ring_buffer_read_characterization_witness :
    ((⟨4, fun _ => 0, 2, 0, 2, false, false⟩ : RingBuffer)).WF ∧ (0 : ℕ) < 5 ∧
    (ring_buffer_read (⟨4, fun _ => 0, 2, 0, 2, false, false⟩ : RingBuffer) 5).map
        Prod.snd = some [0, 0] :=
  ⟨by decide, by decide, by
    have h := (ring_buffer_read_characterization
        ⟨4, fun _ => 0, 2, 0, 2, false, false⟩ 5 (by decide) (by decide)).2.2.2
        (by decide)
    rw [h]
    rfl⟩

theorem readLE_cons (b : ℕ) (bs : List ℕ) (off k : ℕ) :
    readLE (b :: bs) (off + 1) k = readLE bs off k := by
  induction k generalizing off with
  | zero => rfl
  | succ k ih =>
      simp only [readLE, List.getD_cons_succ]
      rw [ih (off + 1)]

theorem readLE_nil (off k : ℕ) : readLE [] off k = 0 := by
  induction k generalizing off with
  | zero => rfl
  | succ k ih =>
      simp only [readLE, ih]
      rfl

theorem readLE_drop0 (bs : List ℕ) (n k : ℕ) :
    readLE bs n k = readLE (bs.drop n) 0 k := by
  induction n generalizing bs with
  | zero => rfl
  | succ n ih =>
      cases bs with
      | nil => rw [readLE_nil, List.drop_nil, readLE_nil]
      | cons b bs => rw [readLE_cons, ih, List.drop_succ_cons]

theorem leBytes_length (k n : ℕ) : (leBytes k n).length = k := by
  induction k generalizing n with
  | zero => rfl
  | succ k ih => simp only [leBytes, List.length_cons, ih]

theorem readLE_append_left (xs ys : List ℕ) (off k : ℕ) (h : off + k ≤ xs.length) :
    readLE (xs ++ ys) off k = readLE xs off k := by
  induction k generalizing off with
  | zero => rfl
  | succ k ih =>
      simp only [readLE]
      rw [List.getD_append _ _ _ _ (by omega), ih (off + 1) (by omega)]

theorem readLE_skip_left (xs ys : List ℕ) (off k : ℕ) :
    readLE (xs ++ ys) (xs.length + off) k = readLE ys off k := by
  induction xs with
  | nil => rw [List.nil_append, List.length_nil, Nat.zero_add]
  | cons x xs ih =>
      have h1 : (x :: xs).length + off = (xs.length + off) + 1 := by
        rw [List.length_cons]
        omega
      rw [List.cons_append, h1, readLE_cons, ih]

theorem readLE_leBytes (k n : ℕ) (h : n < 256 ^ k) :
    readLE (leBytes k n) 0 k = n := by
  induction k generalizing n with
  | zero =>
      show (0 : ℕ) = n
      omega
  | succ k ih =>
      show readLE (n % 256 :: leBytes k (n / 256)) 0 (k + 1) = n
      simp only [readLE, List.getD_cons_zero]
      rw [readLE_cons]
      rw [ih (n / 256) (by
        rw [Nat.div_lt_iff_lt_mul (by norm_num)]
        rw [pow_succ] at h
        exact h)]
      omega

theorem flatten_le8_length (l : List ℕ) :
    ((l.map (leBytes 8)).flatten).length = 8 * l.length := by
  induction l with
  | nil => rfl
  | cons x xs ih =>
      rw [List.map_cons, List.flatten_cons, List.length_append, leBytes_length,
        ih, List.length_cons]
      omega

/-- Decoding the `i`-th 8-byte record of a raw sample payload. -/
theorem readLE_blocks (samples : List ℕ) (i : ℕ) (hi : i < samples.length)
    (hv : ∀ x ∈ samples, x < 256 ^ 8) :
    readLE ((samples.map (leBytes 8)).flatten) (8 * i) 8 = samples.getD i 0 := by
  induction samples generalizing i with
  | nil => exact absurd hi (by simp)
  | cons x xs ih =>
      rcases i with _ | i
      · rw [List.map_cons, List.flatten_cons, Nat.mul_zero,
          readLE_append_left _ _ 0 8 (by rw [leBytes_length])]
        exact readLE_leBytes 8 x (hv x (List.mem_cons_self _ _))
      · rw [List.map_cons, List.flatten_cons]
        have h8 : 8 * (i + 1) = (leBytes 8 x).length + 8 * i := by
          rw [leBytes_length]
          omega
        rw [h8, readLE_skip_left, List.getD_cons_succ]
        exact ih i (by
            rw [List.length_cons] at hi
            omega)
          (fun y hy => hv y (List.mem_cons_of_mem _ hy))

/-- Reading each header field back at its fixed offset, for any payload. -/
theorem header_field_ver (boot_id seq_start sample_rate sample_count t_start t_end : ℕ)
    (post : List ℕ) :
    readLE (chunk_header_bytes boot_id seq_start sample_rate sample_count t_start t_end ++ post)
      4 2 = 1 := by
  have hassoc : chunk_header_bytes boot_id seq_start sample_rate sample_count t_start t_end ++ post
      = magicBytes ++ (leBytes 2 1 ++ (leBytes 4 0 ++ (leBytes 8 boot_id ++ (leBytes 8 seq_start ++ (leBytes 4 sample_rate ++ (leBytes 2 8 ++ (leBytes 4 sample_count ++ (leBytes 8 t_start ++ (leBytes 8 t_end ++ (leBytes 4 0 ++ post)))))))))) := by
    simp [chunk_header_bytes, List.append_assoc]
  rw [hassoc]
  have e0 := readLE_skip_left (magicBytes) (leBytes 2 1 ++ (leBytes 4 0 ++ (leBytes 8 boot_id ++ (leBytes 8 seq_start ++ (leBytes 4 sample_rate ++ (leBytes 2 8 ++ (leBytes 4 sample_count ++ (leBytes 8 t_start ++ (leBytes 8 t_end ++ (leBytes 4 0 ++ post)))))))))) 0 2
  rw [show magicBytes.length = 4 from rfl] at e0
  norm_num at e0
  rw [e0]
  rw [readLE_append_left _ _ 0 2 (by
    rw [leBytes_length])]
  exact readLE_leBytes 2 _ (by norm_num)

theorem header_field_dev (boot_id seq_start sample_rate sample_count t_start t_end : ℕ)
    (post : List ℕ) :
    readLE (chunk_header_bytes boot_id seq_start sample_rate sample_count t_start t_end ++ post)
      6 4 = 0 := by
  have hassoc : chunk_header_bytes boot_id seq_start sample_rate sample_count t_start t_end ++ post
      = magicBytes ++ (leBytes 2 1 ++ (leBytes 4 0 ++ (leBytes 8 boot_id ++ (leBytes 8 seq_start ++ (leBytes 4 sample_rate ++ (leBytes 2 8 ++ (leBytes 4 sample_count ++ (leBytes 8 t_start ++ (leBytes 8 t_end ++ (leBytes 4 0 ++ post)))))))))) := by
    simp [chunk_header_bytes, List.append_assoc]
  rw [hassoc]
  have e0 := readLE_skip_left (magicBytes) (leBytes 2 1 ++ (leBytes 4 0 ++ (leBytes 8 boot_id ++ (leBytes 8 seq_start ++ (leBytes 4 sample_rate ++ (leBytes 2 8 ++ (leBytes 4 sample_count ++ (leBytes 8 t_start ++ (leBytes 8 t_end ++ (leBytes 4 0 ++ post)))))))))) 2 4
  rw [show magicBytes.length = 4 from rfl] at e0
  norm_num at e0
  rw [e0]
  have e1 := readLE_skip_left (leBytes 2 1) (leBytes 4 0 ++ (leBytes 8 boot_id ++ (leBytes 8 seq_start ++ (leBytes 4 sample_rate ++ (leBytes 2 8 ++ (leBytes 4 sample_count ++ (leBytes 8 t_start ++ (leBytes 8 t_end ++ (leBytes 4 0 ++ post))))))))) 0 4
  rw [leBytes_length] at e1
  norm_num at e1
  rw [e1]
  rw [readLE_append_left _ _ 0 4 (by
    rw [leBytes_length])]
  exact readLE_leBytes 4 _ (by norm_num)

theorem header_field_boot (boot_id seq_start sample_rate sample_count t_start t_end : ℕ)
    (post : List ℕ) (h : boot_id < 2 ^ 64) :
    readLE (chunk_header_bytes boot_id seq_start sample_rate sample_count t_start t_end ++ post)
      10 8 = boot_id := by
  have hassoc : chunk_header_bytes boot_id seq_start sample_rate sample_count t_start t_end ++ post
      = magicBytes ++ (leBytes 2 1 ++ (leBytes 4 0 ++ (leBytes 8 boot_id ++ (leBytes 8 seq_start ++ (leBytes 4 sample_rate ++ (leBytes 2 8 ++ (leBytes 4 sample_count ++ (leBytes 8 t_start ++ (leBytes 8 t_end ++ (leBytes 4 0 ++ post)))))))))) := by
    simp [chunk_header_bytes, List.append_assoc]
  rw [hassoc]
  have e0 := readLE_skip_left (magicBytes) (leBytes 2 1 ++ (leBytes 4 0 ++ (leBytes 8 boot_id ++ (leBytes 8 seq_start ++ (leBytes 4 sample_rate ++ (leBytes 2 8 ++ (leBytes 4 sample_count ++ (leBytes 8 t_start ++ (leBytes 8 t_end ++ (leBytes 4 0 ++ post)))))))))) 6 8
  rw [show magicBytes.length = 4 from rfl] at e0
  norm_num at e0
  rw [e0]
  have e1 := readLE_skip_left (leBytes 2 1) (leBytes 4 0 ++ (leBytes 8 boot_id ++ (leBytes 8 seq_start ++ (leBytes 4 sample_rate ++ (leBytes 2 8 ++ (leBytes 4 sample_count ++ (leBytes 8 t_start ++ (leBytes 8 t_end ++ (leBytes 4 0 ++ post))))))))) 4 8
  rw [leBytes_length] at e1
  norm_num at e1
  rw [e1]
  have e2 := readLE_skip_left (leBytes 4 0) (leBytes 8 boot_id ++ (leBytes 8 seq_start ++ (leBytes 4 sample_rate ++ (leBytes 2 8 ++ (leBytes 4 sample_count ++ (leBytes 8 t_start ++ (leBytes 8 t_end ++ (leBytes 4 0 ++ post)))))))) 0 8
  rw [leBytes_length] at e2
  norm_num at e2
  rw [e2]
  rw [readLE_append_left _ _ 0 8 (by
    rw [leBytes_length])]
  exact readLE_leBytes 8 _ (by omega)

theorem header_field_seq (boot_id seq_start sample_rate sample_count t_start t_end : ℕ)
    (post : List ℕ) (h : seq_start < 2 ^ 64) :
    readLE (chunk_header_bytes boot_id seq_start sample_rate sample_count t_start t_end ++ post)
      18 8 = seq_start := by
  have hassoc : chunk_header_bytes boot_id seq_start sample_rate sample_count t_start t_end ++ post
      = magicBytes ++ (leBytes 2 1 ++ (leBytes 4 0 ++ (leBytes 8 boot_id ++ (leBytes 8 seq_start ++ (leBytes 4 sample_rate ++ (leBytes 2 8 ++ (leBytes 4 sample_count ++ (leBytes 8 t_start ++ (leBytes 8 t_end ++ (leBytes 4 0 ++ post)))))))))) := by
    simp [chunk_header_bytes, List.append_assoc]
  rw [hassoc]
  have e0 := readLE_skip_left (magicBytes) (leBytes 2 1 ++ (leBytes 4 0 ++ (leBytes 8 boot_id ++ (leBytes 8 seq_start ++ (leBytes 4 sample_rate ++ (leBytes 2 8 ++ (leBytes 4 sample_count ++ (leBytes 8 t_start ++ (leBytes 8 t_end ++ (leBytes 4 0 ++ post)))))))))) 14 8
  rw [show magicBytes.length = 4 from rfl] at e0
  norm_num at e0
  rw [e0]
  have e1 := readLE_skip_left (leBytes 2 1) (leBytes 4 0 ++ (leBytes 8 boot_id ++ (leBytes 8 seq_start ++ (leBytes 4 sample_rate ++ (leBytes 2 8 ++ (leBytes 4 sample_count ++ (leBytes 8 t_start ++ (leBytes 8 t_end ++ (leBytes 4 0 ++ post))))))))) 12 8
  rw [leBytes_length] at e1
  norm_num at e1
  rw [e1]
  have e2 := readLE_skip_left (leBytes 4 0) (leBytes 8 boot_id ++ (leBytes 8 seq_start ++ (leBytes 4 sample_rate ++ (leBytes 2 8 ++ (leBytes 4 sample_count ++ (leBytes 8 t_start ++ (leBytes 8 t_end ++ (leBytes 4 0 ++ post)))))))) 8 8
  rw [leBytes_length] at e2
  norm_num at e2
  rw [e2]
  have e3 := readLE_skip_left (leBytes 8 boot_id) (leBytes 8 seq_start ++ (leBytes 4 sample_rate ++ (leBytes 2 8 ++ (leBytes 4 sample_count ++ (leBytes 8 t_start ++ (leBytes 8 t_end ++ (leBytes 4 0 ++ post))))))) 0 8
  rw [leBytes_length] at e3
  norm_num at e3
  rw [e3]
  rw [readLE_append_left _ _ 0 8 (by
    rw [leBytes_length])]
  exact readLE_leBytes 8 _ (by omega)

theorem header_field_rate (boot_id seq_start sample_rate sample_count t_start t_end : ℕ)
    (post : List ℕ) (h : sample_rate < 2 ^ 32) :
    readLE (chunk_header_bytes boot_id seq_start sample_rate sample_count t_start t_end ++ post)
      26 4 = sample_rate := by
  have hassoc : chunk_header_bytes boot_id seq_start sample_rate sample_count t_start t_end ++ post
      = magicBytes ++ (leBytes 2 1 ++ (leBytes 4 0 ++ (leBytes 8 boot_id ++ (leBytes 8 seq_start ++ (leBytes 4 sample_rate ++ (leBytes 2 8 ++ (leBytes 4 sample_count ++ (leBytes 8 t_start ++ (leBytes 8 t_end ++ (leBytes 4 0 ++ post)))))))))) := by
    simp [chunk_header_bytes, List.append_assoc]
  rw [hassoc]
  have e0 := readLE_skip_left (magicBytes) (leBytes 2 1 ++ (leBytes 4 0 ++ (leBytes 8 boot_id ++ (leBytes 8 seq_start ++ (leBytes 4 sample_rate ++ (leBytes 2 8 ++ (leBytes 4 sample_count ++ (leBytes 8 t_start ++ (leBytes 8 t_end ++ (leBytes 4 0 ++ post)))))))))) 22 4
  rw [show magicBytes.length = 4 from rfl] at e0
  norm_num at e0
  rw [e0]
  have e1 := readLE_skip_left (leBytes 2 1) (leBytes 4 0 ++ (leBytes 8 boot_id ++ (leBytes 8 seq_start ++ (leBytes 4 sample_rate ++ (leBytes 2 8 ++ (leBytes 4 sample_count ++ (leBytes 8 t_start ++ (leBytes 8 t_end ++ (leBytes 4 0 ++ post))))))))) 20 4
  rw [leBytes_length] at e1
  norm_num at e1
  rw [e1]
  have e2 := readLE_skip_left (leBytes 4 0) (leBytes 8 boot_id ++ (leBytes 8 seq_start ++ (leBytes 4 sample_rate ++ (leBytes 2 8 ++ (leBytes 4 sample_count ++ (leBytes 8 t_start ++ (leBytes 8 t_end ++ (leBytes 4 0 ++ post)))))))) 16 4
  rw [leBytes_length] at e2
  norm_num at e2
  rw [e2]
  have e3 := readLE_skip_left (leBytes 8 boot_id) (leBytes 8 seq_start ++ (leBytes 4 sample_rate ++ (leBytes 2 8 ++ (leBytes 4 sample_count ++ (leBytes 8 t_start ++ (leBytes 8 t_end ++ (leBytes 4 0 ++ post))))))) 8 4
  rw [leBytes_length] at e3
  norm_num at e3
  rw [e3]
  have e4 := readLE_skip_left (leBytes 8 seq_start) (leBytes 4 sample_rate ++ (leBytes 2 8 ++ (leBytes 4 sample_count ++ (leBytes 8 t_start ++ (leBytes 8 t_end ++ (leBytes 4 0 ++ post)))))) 0 4
  rw [leBytes_length] at e4
  norm_num at e4
  rw [e4]
  rw [readLE_append_left _ _ 0 4 (by
    rw [leBytes_length])]
  exact readLE_leBytes 4 _ (by omega)

theorem header_field_rec (boot_id seq_start sample_rate sample_count t_start t_end : ℕ)
    (post : List ℕ) :
    readLE (chunk_header_bytes boot_id seq_start sample_rate sample_count t_start t_end ++ post)
      30 2 = 8 := by
  have hassoc : chunk_header_bytes boot_id seq_start sample_rate sample_count t_start t_end ++ post
      = magicBytes ++ (leBytes 2 1 ++ (leBytes 4 0 ++ (leBytes 8 boot_id ++ (leBytes 8 seq_start ++ (leBytes 4 sample_rate ++ (leBytes 2 8 ++ (leBytes 4 sample_count ++ (leBytes 8 t_start ++ (leBytes 8 t_end ++ (leBytes 4 0 ++ post)))))))))) := by
    simp [chunk_header_bytes, List.append_assoc]
  rw [hassoc]
  have e0 := readLE_skip_left (magicBytes) (leBytes 2 1 ++ (leBytes 4 0 ++ (leBytes 8 boot_id ++ (leBytes 8 seq_start ++ (leBytes 4 sample_rate ++ (leBytes 2 8 ++ (leBytes 4 sample_count ++ (leBytes 8 t_start ++ (leBytes 8 t_end ++ (leBytes 4 0 ++ post)))))))))) 26 2
  rw [show magicBytes.length = 4 from rfl] at e0
  norm_num at e0
  rw [e0]
  have e1 := readLE_skip_left (leBytes 2 1) (leBytes 4 0 ++ (leBytes 8 boot_id ++ (leBytes 8 seq_start ++ (leBytes 4 sample_rate ++ (leBytes 2 8 ++ (leBytes 4 sample_count ++ (leBytes 8 t_start ++ (leBytes 8 t_end ++ (leBytes 4 0 ++ post))))))))) 24 2
  rw [leBytes_length] at e1
  norm_num at e1
  rw [e1]
  have e2 := readLE_skip_left (leBytes 4 0) (leBytes 8 boot_id ++ (leBytes 8 seq_start ++ (leBytes 4 sample_rate ++ (leBytes 2 8 ++ (leBytes 4 sample_count ++ (leBytes 8 t_start ++ (leBytes 8 t_end ++ (leBytes 4 0 ++ post)))))))) 20 2
  rw [leBytes_length] at e2
  norm_num at e2
  rw [e2]
  have e3 := readLE_skip_left (leBytes 8 boot_id) (leBytes 8 seq_start ++ (leBytes 4 sample_rate ++ (leBytes 2 8 ++ (leBytes 4 sample_count ++ (leBytes 8 t_start ++ (leBytes 8 t_end ++ (leBytes 4 0 ++ post))))))) 12 2
  rw [leBytes_length] at e3
  norm_num at e3
  rw [e3]
  have e4 := readLE_skip_left (leBytes 8 seq_start) (leBytes 4 sample_rate ++ (leBytes 2 8 ++ (leBytes 4 sample_count ++ (leBytes 8 t_start ++ (leBytes 8 t_end ++ (leBytes 4 0 ++ post)))))) 4 2
  rw [leBytes_length] at e4
  norm_num at e4
  rw [e4]
  have e5 := readLE_skip_left (leBytes 4 sample_rate) (leBytes 2 8 ++ (leBytes 4 sample_count ++ (leBytes 8 t_start ++ (leBytes 8 t_end ++ (leBytes 4 0 ++ post))))) 0 2
  rw [leBytes_length] at e5
  norm_num at e5
  rw [e5]
  rw [readLE_append_left _ _ 0 2 (by
    rw [leBytes_length])]
  exact readLE_leBytes 2 _ (by norm_num)

theorem header_field_cnt (boot_id seq_start sample_rate sample_count t_start t_end : ℕ)
    (post : List ℕ) (h : sample_count < 2 ^ 32) :
    readLE (chunk_header_bytes boot_id seq_start sample_rate sample_count t_start t_end ++ post)
      32 4 = sample_count := by
  have hassoc : chunk_header_bytes boot_id seq_start sample_rate sample_count t_start t_end ++ post
      = magicBytes ++ (leBytes 2 1 ++ (leBytes 4 0 ++ (leBytes 8 boot_id ++ (leBytes 8 seq_start ++ (leBytes 4 sample_rate ++ (leBytes 2 8 ++ (leBytes 4 sample_count ++ (leBytes 8 t_start ++ (leBytes 8 t_end ++ (leBytes 4 0 ++ post)))))))))) := by
    simp [chunk_header_bytes, List.append_assoc]
  rw [hassoc]
  have e0 := readLE_skip_left (magicBytes) (leBytes 2 1 ++ (leBytes 4 0 ++ (leBytes 8 boot_id ++ (leBytes 8 seq_start ++ (leBytes 4 sample_rate ++ (leBytes 2 8 ++ (leBytes 4 sample_count ++ (leBytes 8 t_start ++ (leBytes 8 t_end ++ (leBytes 4 0 ++ post)))))))))) 28 4
  rw [show magicBytes.length = 4 from rfl] at e0
  norm_num at e0
  rw [e0]
  have e1 := readLE_skip_left (leBytes 2 1) (leBytes 4 0 ++ (leBytes 8 boot_id ++ (leBytes 8 seq_start ++ (leBytes 4 sample_rate ++ (leBytes 2 8 ++ (leBytes 4 sample_count ++ (leBytes 8 t_start ++ (leBytes 8 t_end ++ (leBytes 4 0 ++ post))))))))) 26 4
  rw [leBytes_length] at e1
  norm_num at e1
  rw [e1]
  have e2 := readLE_skip_left (leBytes 4 0) (leBytes 8 boot_id ++ (leBytes 8 seq_start ++ (leBytes 4 sample_rate ++ (leBytes 2 8 ++ (leBytes 4 sample_count ++ (leBytes 8 t_start ++ (leBytes 8 t_end ++ (leBytes 4 0 ++ post)))))))) 22 4
  rw [leBytes_length] at e2
  norm_num at e2
  rw [e2]
  have e3 := readLE_skip_left (leBytes 8 boot_id) (leBytes 8 seq_start ++ (leBytes 4 sample_rate ++ (leBytes 2 8 ++ (leBytes 4 sample_count ++ (leBytes 8 t_start ++ (leBytes 8 t_end ++ (leBytes 4 0 ++ post))))))) 14 4
  rw [leBytes_length] at e3
  norm_num at e3
  rw [e3]
  have e4 := readLE_skip_left (leBytes 8 seq_start) (leBytes 4 sample_rate ++ (leBytes 2 8 ++ (leBytes 4 sample_count ++ (leBytes 8 t_start ++ (leBytes 8 t_end ++ (leBytes 4 0 ++ post)))))) 6 4
  rw [leBytes_length] at e4
  norm_num at e4
  rw [e4]
  have e5 := readLE_skip_left (leBytes 4 sample_rate) (leBytes 2 8 ++ (leBytes 4 sample_count ++ (leBytes 8 t_start ++ (leBytes 8 t_end ++ (leBytes 4 0 ++ post))))) 2 4
  rw [leBytes_length] at e5
  norm_num at e5
  rw [e5]
  have e6 := readLE_skip_left (leBytes 2 8) (leBytes 4 sample_count ++ (leBytes 8 t_start ++ (leBytes 8 t_end ++ (leBytes 4 0 ++ post)))) 0 4
  rw [leBytes_length] at e6
  norm_num at e6
  rw [e6]
  rw [readLE_append_left _ _ 0 4 (by
    rw [leBytes_length])]
  exact readLE_leBytes 4 _ (by omega)

theorem header_field_ts (boot_id seq_start sample_rate sample_count t_start t_end : ℕ)
    (post : List ℕ) (h : t_start < 2 ^ 64) :
    readLE (chunk_header_bytes boot_id seq_start sample_rate sample_count t_start t_end ++ post)
      36 8 = t_start := by
  have hassoc : chunk_header_bytes boot_id seq_start sample_rate sample_count t_start t_end ++ post
      = magicBytes ++ (leBytes 2 1 ++ (leBytes 4 0 ++ (leBytes 8 boot_id ++ (leBytes 8 seq_start ++ (leBytes 4 sample_rate ++ (leBytes 2 8 ++ (leBytes 4 sample_count ++ (leBytes 8 t_start ++ (leBytes 8 t_end ++ (leBytes 4 0 ++ post)))))))))) := by
    simp [chunk_header_bytes, List.append_assoc]
  rw [hassoc]
  have e0 := readLE_skip_left (magicBytes) (leBytes 2 1 ++ (leBytes 4 0 ++ (leBytes 8 boot_id ++ (leBytes 8 seq_start ++ (leBytes 4 sample_rate ++ (leBytes 2 8 ++ (leBytes 4 sample_count ++ (leBytes 8 t_start ++ (leBytes 8 t_end ++ (leBytes 4 0 ++ post)))))))))) 32 8
  rw [show magicBytes.length = 4 from rfl] at e0
  norm_num at e0
  rw [e0]
  have e1 := readLE_skip_left (leBytes 2 1) (leBytes 4 0 ++ (leBytes 8 boot_id ++ (leBytes 8 seq_start ++ (leBytes 4 sample_rate ++ (leBytes 2 8 ++ (leBytes 4 sample_count ++ (leBytes 8 t_start ++ (leBytes 8 t_end ++ (leBytes 4 0 ++ post))))))))) 30 8
  rw [leBytes_length] at e1
  norm_num at e1
  rw [e1]
  have e2 := readLE_skip_left (leBytes 4 0) (leBytes 8 boot_id ++ (leBytes 8 seq_start ++ (leBytes 4 sample_rate ++ (leBytes 2 8 ++ (leBytes 4 sample_count ++ (leBytes 8 t_start ++ (leBytes 8 t_end ++ (leBytes 4 0 ++ post)))))))) 26 8
  rw [leBytes_length] at e2
  norm_num at e2
  rw [e2]
  have e3 := readLE_skip_left (leBytes 8 boot_id) (leBytes 8 seq_start ++ (leBytes 4 sample_rate ++ (leBytes 2 8 ++ (leBytes 4 sample_count ++ (leBytes 8 t_start ++ (leBytes 8 t_end ++ (leBytes 4 0 ++ post))))))) 18 8
  rw [leBytes_length] at e3
  norm_num at e3
  rw [e3]
  have e4 := readLE_skip_left (leBytes 8 seq_start) (leBytes 4 sample_rate ++ (leBytes 2 8 ++ (leBytes 4 sample_count ++ (leBytes 8 t_start ++ (leBytes 8 t_end ++ (leBytes 4 0 ++ post)))))) 10 8
  rw [leBytes_length] at e4
  norm_num at e4
  rw [e4]
  have e5 := readLE_skip_left (leBytes 4 sample_rate) (leBytes 2 8 ++ (leBytes 4 sample_count ++ (leBytes 8 t_start ++ (leBytes 8 t_end ++ (leBytes 4 0 ++ post))))) 6 8
  rw [leBytes_length] at e5
  norm_num at e5
  rw [e5]
  have e6 := readLE_skip_left (leBytes 2 8) (leBytes 4 sample_count ++ (leBytes 8 t_start ++ (leBytes 8 t_end ++ (leBytes 4 0 ++ post)))) 4 8
  rw [leBytes_length] at e6
  norm_num at e6
  rw [e6]
  have e7 := readLE_skip_left (leBytes 4 sample_count) (leBytes 8 t_start ++ (leBytes 8 t_end ++ (leBytes 4 0 ++ post))) 0 8
  rw [leBytes_length] at e7
  norm_num at e7
  rw [e7]
  rw [readLE_append_left _ _ 0 8 (by
    rw [leBytes_length])]
  exact readLE_leBytes 8 _ (by omega)

theorem header_field_te (boot_id seq_start sample_rate sample_count t_start t_end : ℕ)
    (post : List ℕ) (h : t_end < 2 ^ 64) :
    readLE (chunk_header_bytes boot_id seq_start sample_rate sample_count t_start t_end ++ post)
      44 8 = t_end := by
  have hassoc : chunk_header_bytes boot_id seq_start sample_rate sample_count t_start t_end ++ post
      = magicBytes ++ (leBytes 2 1 ++ (leBytes 4 0 ++ (leBytes 8 boot_id ++ (leBytes 8 seq_start ++ (leBytes 4 sample_rate ++ (leBytes 2 8 ++ (leBytes 4 sample_count ++ (leBytes 8 t_start ++ (leBytes 8 t_end ++ (leBytes 4 0 ++ post)))))))))) := by
    simp [chunk_header_bytes, List.append_assoc]
  rw [hassoc]
  have e0 := readLE_skip_left (magicBytes) (leBytes 2 1 ++ (leBytes 4 0 ++ (leBytes 8 boot_id ++ (leBytes 8 seq_start ++ (leBytes 4 sample_rate ++ (leBytes 2 8 ++ (leBytes 4 sample_count ++ (leBytes 8 t_start ++ (leBytes 8 t_end ++ (leBytes 4 0 ++ post)))))))))) 40 8
  rw [show magicBytes.length = 4 from rfl] at e0
  norm_num at e0
  rw [e0]
  have e1 := readLE_skip_left (leBytes 2 1) (leBytes 4 0 ++ (leBytes 8 boot_id ++ (leBytes 8 seq_start ++ (leBytes 4 sample_rate ++ (leBytes 2 8 ++ (leBytes 4 sample_count ++ (leBytes 8 t_start ++ (leBytes 8 t_end ++ (leBytes 4 0 ++ post))))))))) 38 8
  rw [leBytes_length] at e1
  norm_num at e1
  rw [e1]
  have e2 := readLE_skip_left (leBytes 4 0) (leBytes 8 boot_id ++ (leBytes 8 seq_start ++ (leBytes 4 sample_rate ++ (leBytes 2 8 ++ (leBytes 4 sample_count ++ (leBytes 8 t_start ++ (leBytes 8 t_end ++ (leBytes 4 0 ++ post)))))))) 34 8
  rw [leBytes_length] at e2
  norm_num at e2
  rw [e2]
  have e3 := readLE_skip_left (leBytes 8 boot_id) (leBytes 8 seq_start ++ (leBytes 4 sample_rate ++ (leBytes 2 8 ++ (leBytes 4 sample_count ++ (leBytes 8 t_start ++ (leBytes 8 t_end ++ (leBytes 4 0 ++ post))))))) 26 8
  rw [leBytes_length] at e3
  norm_num at e3
  rw [e3]
  have e4 := readLE_skip_left (leBytes 8 seq_start) (leBytes 4 sample_rate ++ (leBytes 2 8 ++ (leBytes 4 sample_count ++ (leBytes 8 t_start ++ (leBytes 8 t_end ++ (leBytes 4 0 ++ post)))))) 18 8
  rw [leBytes_length] at e4
  norm_num at e4
  rw [e4]
  have e5 := readLE_skip_left (leBytes 4 sample_rate) (leBytes 2 8 ++ (leBytes 4 sample_count ++ (leBytes 8 t_start ++ (leBytes 8 t_end ++ (leBytes 4 0 ++ post))))) 14 8
  rw [leBytes_length] at e5
  norm_num at e5
  rw [e5]
  have e6 := readLE_skip_left (leBytes 2 8) (leBytes 4 sample_count ++ (leBytes 8 t_start ++ (leBytes 8 t_end ++ (leBytes 4 0 ++ post)))) 12 8
  rw [leBytes_length] at e6
  norm_num at e6
  rw [e6]
  have e7 := readLE_skip_left (leBytes 4 sample_count) (leBytes 8 t_start ++ (leBytes 8 t_end ++ (leBytes 4 0 ++ post))) 8 8
  rw [leBytes_length] at e7
  norm_num at e7
  rw [e7]
  have e8 := readLE_skip_left (leBytes 8 t_start) (leBytes 8 t_end ++ (leBytes 4 0 ++ post)) 0 8
  rw [leBytes_length] at e8
  norm_num at e8
  rw [e8]
  rw [readLE_append_left _ _ 0 8 (by
    rw [leBytes_length])]
  exact readLE_leBytes 8 _ (by omega)

theorem header_field_crc (boot_id seq_start sample_rate sample_count t_start t_end : ℕ)
    (post : List ℕ) :
    readLE (chunk_header_bytes boot_id seq_start sample_rate sample_count t_start t_end ++ post)
      52 4 = 0 := by
  have hassoc : chunk_header_bytes boot_id seq_start sample_rate sample_count t_start t_end ++ post
      = magicBytes ++ (leBytes 2 1 ++ (leBytes 4 0 ++ (leBytes 8 boot_id ++ (leBytes 8 seq_start ++ (leBytes 4 sample_rate ++ (leBytes 2 8 ++ (leBytes 4 sample_count ++ (leBytes 8 t_start ++ (leBytes 8 t_end ++ (leBytes 4 0 ++ post)))))))))) := by
    simp [chunk_header_bytes, List.append_assoc]
  rw [hassoc]
  have e0 := readLE_skip_left (magicBytes) (leBytes 2 1 ++ (leBytes 4 0 ++ (leBytes 8 boot_id ++ (leBytes 8 seq_start ++ (leBytes 4 sample_rate ++ (leBytes 2 8 ++ (leBytes 4 sample_count ++ (leBytes 8 t_start ++ (leBytes 8 t_end ++ (leBytes 4 0 ++ post)))))))))) 48 4
  rw [show magicBytes.length = 4 from rfl] at e0
  norm_num at e0
  rw [e0]
  have e1 := readLE_skip_left (leBytes 2 1) (leBytes 4 0 ++ (leBytes 8 boot_id ++ (leBytes 8 seq_start ++ (leBytes 4 sample_rate ++ (leBytes 2 8 ++ (leBytes 4 sample_count ++ (leBytes 8 t_start ++ (leBytes 8 t_end ++ (leBytes 4 0 ++ post))))))))) 46 4
  rw [leBytes_length] at e1
  norm_num at e1
  rw [e1]
  have e2 := readLE_skip_left (leBytes 4 0) (leBytes 8 boot_id ++ (leBytes 8 seq_start ++ (leBytes 4 sample_rate ++ (leBytes 2 8 ++ (leBytes 4 sample_count ++ (leBytes 8 t_start ++ (leBytes 8 t_end ++ (leBytes 4 0 ++ post)))))))) 42 4
  rw [leBytes_length] at e2
  norm_num at e2
  rw [e2]
  have e3 := readLE_skip_left (leBytes 8 boot_id) (leBytes 8 seq_start ++ (leBytes 4 sample_rate ++ (leBytes 2 8 ++ (leBytes 4 sample_count ++ (leBytes 8 t_start ++ (leBytes 8 t_end ++ (leBytes 4 0 ++ post))))))) 34 4
  rw [leBytes_length] at e3
  norm_num at e3
  rw [e3]
  have e4 := readLE_skip_left (leBytes 8 seq_start) (leBytes 4 sample_rate ++ (leBytes 2 8 ++ (leBytes 4 sample_count ++ (leBytes 8 t_start ++ (leBytes 8 t_end ++ (leBytes 4 0 ++ post)))))) 26 4
  rw [leBytes_length] at e4
  norm_num at e4
  rw [e4]
  have e5 := readLE_skip_left (leBytes 4 sample_rate) (leBytes 2 8 ++ (leBytes 4 sample_count ++ (leBytes 8 t_start ++ (leBytes 8 t_end ++ (leBytes 4 0 ++ post))))) 22 4
  rw [leBytes_length] at e5
  norm_num at e5
  rw [e5]
  have e6 := readLE_skip_left (leBytes 2 8) (leBytes 4 sample_count ++ (leBytes 8 t_start ++ (leBytes 8 t_end ++ (leBytes 4 0 ++ post)))) 20 4
  rw [leBytes_length] at e6
  norm_num at e6
  rw [e6]
  have e7 := readLE_skip_left (leBytes 4 sample_count) (leBytes 8 t_start ++ (leBytes 8 t_end ++ (leBytes 4 0 ++ post))) 16 4
  rw [leBytes_length] at e7
  norm_num at e7
  rw [e7]
  have e8 := readLE_skip_left (leBytes 8 t_start) (leBytes 8 t_end ++ (leBytes 4 0 ++ post)) 8 4
  rw [leBytes_length] at e8
  norm_num at e8
  rw [e8]
  have e9 := readLE_skip_left (leBytes 8 t_end) (leBytes 4 0 ++ post) 0 4
  rw [leBytes_length] at e9
  norm_num at e9
  rw [e9]
  rw [readLE_append_left _ _ 0 4 (by
    rw [leBytes_length])]
  exact readLE_leBytes 4 _ (by norm_num)

theorem header_field_magic (boot_id seq_start sample_rate sample_count t_start t_end : ℕ)
    (post : List ℕ) :
    (chunk_header_bytes boot_id seq_start sample_rate sample_count t_start t_end ++ post).take 4
      = magicBytes := rfl

/-- C3: every committed chunk file is the fixed little-endian header
followed immediately by exactly `sample_count × 8` payload bytes;
reparsing recovers the header fields and the payload identical to what the
writer was given, and the header sample count matches the number of 8-byte
records present. -/
theorem chunk_file_roundtrip (boot_id seq_start sample_count sample_rate now : ℕ)
    (samples : List ℕ)
    (hb : boot_id < 2 ^ 64) (hs : seq_start < 2 ^ 64)
    (hr : sample_rate < 2 ^ 32) (hc : sample_count < 2 ^ 32)
    (hn : now < 2 ^ 64) (hcl : sample_count ≤ samples.length)
    (hv : ∀ x ∈ samples, x < 2 ^ 64) :
    (write_chunk_bytes boot_id seq_start samples sample_count sample_rate now).length
      = 56 + sample_count * 8 ∧
    parse_chunk_file (write_chunk_bytes boot_id seq_start samples sample_count sample_rate now)
      = some
        ({ magic := magicBytes, version := 1, device_id := 0, boot_id := boot_id,
            seq_start := seq_start, sample_rate_hz := sample_rate, record_size := 8,
            sample_count := sample_count, sensor_time_start := now,
            sensor_time_end := now, payload_crc32 := 0 },
          samples.take sample_count) := by
  have hl : (chunk_header_bytes boot_id seq_start sample_rate sample_count now now).length
      = 56 := by
    simp [chunk_header_bytes, magicBytes, leBytes_length]
  have hsplit : write_chunk_bytes boot_id seq_start samples sample_count sample_rate now
      = chunk_header_bytes boot_id seq_start sample_rate sample_count now now ++
        ((samples.take sample_count).map (leBytes 8)).flatten := rfl
  have hLen : (chunk_header_bytes boot_id seq_start sample_rate sample_count now now ++
      ((samples.take sample_count).map (leBytes 8)).flatten).length
      = 56 + sample_count * 8 := by
    rw [List.length_append, hl, flatten_le8_length, List.length_take]
    omega
  have hpow : (256 : ℕ) ^ 8 = 2 ^ 64 := by norm_num
  have hcnt := header_field_cnt boot_id seq_start sample_rate sample_count now now
    (((samples.take sample_count).map (leBytes 8)).flatten) hc
  have hdec : (List.range sample_count).map
      (fun i => readLE (chunk_header_bytes boot_id seq_start sample_rate sample_count now now ++
        ((samples.take sample_count).map (leBytes 8)).flatten) (56 + 8 * i) 8)
      = samples.take sample_count := by
    have hlt : (samples.take sample_count).length = sample_count := by
      rw [List.length_take]
      omega
    have step1 : (List.range sample_count).map
        (fun i => readLE (chunk_header_bytes boot_id seq_start sample_rate sample_count now now ++
          ((samples.take sample_count).map (leBytes 8)).flatten) (56 + 8 * i) 8)
        = (List.range sample_count).map (fun i => (samples.take sample_count).getD i 0) := by
      apply List.map_congr_left
      intro i hmem
      have hi : i < sample_count := List.mem_range.mp hmem
      have e1 := readLE_skip_left
        (chunk_header_bytes boot_id seq_start sample_rate sample_count now now)
        (((samples.take sample_count).map (leBytes 8)).flatten) (8 * i) 8
      rw [hl] at e1
      rw [e1]
      exact readLE_blocks (samples.take sample_count) i (by omega)
        (fun y hy => hpow ▸ hv y (List.mem_of_mem_take hy))
    have m := map_getD_range (samples.take sample_count)
    rw [hlt] at m
    rw [step1, m]
  constructor
  · rw [hsplit]
    exact hLen
  · simp only [parse_chunk_file]
    rw [hsplit]
    rw [if_pos (by rw [hLen]; omega :
      56 ≤ (chunk_header_bytes boot_id seq_start sample_rate sample_count now now ++
        ((samples.take sample_count).map (leBytes 8)).flatten).length)]
    rw [if_pos ⟨header_field_magic boot_id seq_start sample_rate sample_count now now _,
      by rw [hLen, hcnt]; omega⟩]
    rw [header_field_magic boot_id seq_start sample_rate sample_count now now _,
      header_field_ver boot_id seq_start sample_rate sample_count now now _,
      header_field_dev boot_id seq_start sample_rate sample_count now now _,
      header_field_boot boot_id seq_start sample_rate sample_count now now _ hb,
      header_field_seq boot_id seq_start sample_rate sample_count now now _ hs,
      header_field_rate boot_id seq_start sample_rate sample_count now now _ hr,
      header_field_rec boot_id seq_start sample_rate sample_count now now _,
      hcnt,
      header_field_ts boot_id seq_start sample_rate sample_count now now _ hn,
      header_field_te boot_id seq_start sample_rate sample_count now now _ hn,
      header_field_crc boot_id seq_start sample_rate sample_count now now _,
      hdec]

theorem chunk_file_roundtrip_witness :
    (5 : ℕ) < 2 ^ 64 ∧ (7 : ℕ) < 2 ^ 64 ∧ (120 : ℕ) < 2 ^ 32 ∧ (2 : ℕ) < 2 ^ 32 ∧
    (100 : ℕ) < 2 ^ 64 ∧ (2 : ℕ) ≤ ([9, 11] : List ℕ).length ∧
    ((write_chunk_bytes 5 7 [9, 11] 2 120 100).length = 56 + 2 * 8 ∧
      parse_chunk_file (write_chunk_bytes 5 7 [9, 11] 2 120 100)
        = some
          ({ magic := magicBytes, version := 1, device_id := 0, boot_id := 5,
              seq_start := 7, sample_rate_hz := 120, record_size := 8,
              sample_count := 2, sensor_time_start := 100,
              sensor_time_end := 100, payload_crc32 := 0 }, [9, 11])) :=
  ⟨by norm_num, by norm_num, by norm_num, by norm_num, by norm_num, by norm_num,
    chunk_file_roundtrip 5 7 2 120 100 [9, 11]
      (by norm_num) (by norm_num) (by norm_num) (by norm_num) (by norm_num)
      (by norm_num) (by decide)⟩

/-! ## Consumer lemmas -/
theorem rate_adjusted_seq (cs : ConsumerState) (rr : ℚ) :
    (rate_adjusted cs rr).seq_counter = cs.seq_counter := by
  unfold rate_adjusted
  split <;> rfl

theorem rate_adjusted_collected (cs : ConsumerState) (rr : ℚ)
    (h : cs.samples_collected ≤ cs.samples_per_chunk) :
    (rate_adjusted cs rr).samples_collected ≤ (rate_adjusted cs rr).samples_per_chunk := by
  unfold rate_adjusted
  split
  · exact Nat.zero_le _
  · exact h

/-- Fact: `ring_buffer_read` never returns more than the requested length. -/
theorem ring_buffer_read_length (rb : RingBuffer) (len : ℕ) (rb2 : RingBuffer)
    (out : List ℕ) (h : ring_buffer_read rb len = some (rb2, out)) :
    out.length ≤ len := by
  simp only [ring_buffer_read] at h
  by_cases h1 : rb.available = 0 ∧ rb.producer_done = false
  · rw [if_pos h1] at h
    cases h
  · rw [if_neg h1] at h
    by_cases h2 : rb.available = 0
    · rw [if_pos h2] at h
      simp only [Option.some.injEq, Prod.mk.injEq] at h
      obtain ⟨-, ho⟩ := h
      rw [← ho]
      exact Nat.zero_le _
    · rw [if_neg h2] at h
      simp only [Option.some.injEq, Prod.mk.injEq] at h
      obtain ⟨-, ho⟩ := h
      rw [← ho, List.length_map, List.length_range]
      split <;> omega

/-- Characterisation of one consumer iteration. -/
theorem consumer_iteration_characterize (cs : ConsumerState) (rb : RingBuffer)
    (rr : ℚ) (sc w : Bool) (cs' : ConsumerState) (rb' : RingBuffer)
    (orec : Option CommitRecord)
    (h : consumer_iteration cs rb rr sc w = some (cs', rb', orec)) :
    cs'.samples_per_chunk = (rate_adjusted cs rr).samples_per_chunk ∧
    cs'.current_rate = (rate_adjusted cs rr).current_rate ∧
    (orec = none → cs'.seq_counter = cs.seq_counter) ∧
    (∀ rec, orec = some rec →
      rec.seq_start = cs.seq_counter ∧ rec.ok = w ∧
      rec.sample_count = (rate_adjusted cs rr).samples_per_chunk ∧
      cs'.seq_counter = (if w = true then cs.seq_counter + rec.sample_count
        else cs.seq_counter) ∧
      cs'.samples_collected = 0) ∧
    (cs.samples_collected ≤ cs.samples_per_chunk →
      cs'.samples_collected ≤ cs'.samples_per_chunk) := by
  simp only [consumer_iteration] at h
  by_cases hcap : (sc = true ∨ 0 < (rate_adjusted cs rr).samples_collected)
  · rw [if_pos hcap] at h
    cases hread : ring_buffer_read rb
        (((rate_adjusted cs rr).samples_per_chunk
          - (rate_adjusted cs rr).samples_collected) * 8) with
    | none =>
        rw [hread] at h
        cases h
    | some p =>
        obtain ⟨rb1, out⟩ := p
        rw [hread] at h
        simp only at h
        by_cases hfull : (rate_adjusted cs rr).samples_per_chunk
            ≤ (rate_adjusted cs rr).samples_collected + out.length / 8
        · rw [if_pos hfull] at h
          simp only [Option.some.injEq, Prod.mk.injEq] at h
          obtain ⟨hcs, -, horec⟩ := h
          subst hcs
          refine ⟨rfl, rfl, ?_, ?_, ?_⟩
          · intro hnone
            rw [← horec] at hnone
            cases hnone
          · intro rec hrec
            rw [← horec] at hrec
            simp only [Option.some.injEq] at hrec
            subst hrec
            refine ⟨rate_adjusted_seq cs rr, rfl, rfl, ?_, rfl⟩
            show (if w = true then (rate_adjusted cs rr).seq_counter + _ else
              (rate_adjusted cs rr).seq_counter) = _
            rw [rate_adjusted_seq]
          · intro hinv
            show (0 : ℕ) ≤ _
            exact Nat.zero_le _
        · rw [if_neg hfull] at h
          simp only [Option.some.injEq, Prod.mk.injEq] at h
          obtain ⟨hcs, -, horec⟩ := h
          subst hcs
          refine ⟨rfl, rfl, fun _ => rate_adjusted_seq cs rr, ?_, ?_⟩
          · intro rec hrec
            rw [← horec] at hrec
            cases hrec
          · intro hinv
            show (rate_adjusted cs rr).samples_collected + out.length / 8
              ≤ (rate_adjusted cs rr).samples_per_chunk
            have hlen := ring_buffer_read_length rb _ rb1 out hread
            have h8 : out.length / 8 ≤ (rate_adjusted cs rr).samples_per_chunk
                - (rate_adjusted cs rr).samples_collected := by
              have := Nat.div_le_div_right (c := 8) hlen
              rw [Nat.mul_div_cancel _ (by norm_num)] at this
              exact this
            have hcol := rate_adjusted_collected cs rr hinv
            omega
  · rw [if_neg hcap] at h
    simp only [Option.some.injEq, Prod.mk.injEq] at h
    obtain ⟨hcs, -, horec⟩ := h
    subst hcs
    refine ⟨rfl, rfl, fun _ => rate_adjusted_seq cs rr, ?_, ?_⟩
    · intro rec hrec
      rw [← horec] at hrec
      cases hrec
    · intro hinv
      exact rate_adjusted_collected cs rr hinv

/-- Successful commits in a consumer run are contiguous: each successful
record starts exactly where the previous successful one ended, and the
first starts at the initial sequence counter. -/
theorem consumer_run_contiguous (inputs : List (ℚ × Bool × Bool))
    (cs : ConsumerState) (rb : RingBuffer) (cs2 : ConsumerState)
    (rb2 : RingBuffer) (recs : List CommitRecord)
    (h : consumer_run cs rb inputs = some (cs2, rb2, recs)) :
    List.Chain' (fun a b => b.seq_start = a.seq_start + a.sample_count)
      (recs.filter (fun r => r.ok)) ∧
    (∀ b ∈ (recs.filter (fun r => r.ok)).head?, b.seq_start = cs.seq_counter) := by
  induction inputs generalizing cs rb cs2 rb2 recs with
  | nil =>
      simp only [consumer_run, Option.some.injEq, Prod.mk.injEq] at h
      obtain ⟨-, -, hr⟩ := h
      rw [← hr]
      exact ⟨List.chain'_nil, by simp⟩
  | cons i rest ih =>
      obtain ⟨rr, sc, w⟩ := i
      simp only [consumer_run] at h
      cases hit : consumer_iteration cs rb rr sc w with
      | none =>
          rw [hit] at h
          cases h
      | some p =>
          obtain ⟨cs1, rb1, orec⟩ := p
          rw [hit] at h
          simp only at h
          cases hrun : consumer_run cs1 rb1 rest with
          | none =>
              rw [hrun] at h
              cases h
          | some q =>
              obtain ⟨csx, rbx, recsx⟩ := q
              rw [hrun] at h
              simp only [Option.some.injEq, Prod.mk.injEq] at h
              obtain ⟨-, -, hr⟩ := h
              obtain ⟨hc1, hc2, hcn, hcs, hci⟩ :=
                consumer_iteration_characterize cs rb rr sc w cs1 rb1 orec hit
              obtain ⟨ih1, ih2⟩ := ih cs1 rb1 csx rbx recsx hrun
              rw [← hr]
              cases orec with
              | none =>
                  simp only [Option.toList, List.nil_append]
                  refine ⟨ih1, ?_⟩
                  intro b hb
                  rw [ih2 b hb, hcn rfl]
              | some rec =>
                  obtain ⟨hs1, hs2, hs3, hs4, hs5⟩ := hcs rec rfl
                  simp only [Option.toList, List.singleton_append]
                  cases hok : rec.ok with
                  | false =>
                      have hw : w = false := by rw [← hs2, hok]
                      have hfil : ((rec :: recsx).filter (fun r => r.ok))
                          = recsx.filter (fun r => r.ok) := by
                        simp [List.filter_cons, hok]
                      rw [hfil]
                      refine ⟨ih1, ?_⟩
                      intro b hb
                      rw [ih2 b hb, hs4, hw]
                      simp
                  | true =>
                      have hw : w = true := by rw [← hs2, hok]
                      have hfil : ((rec :: recsx).filter (fun r => r.ok))
                          = rec :: recsx.filter (fun r => r.ok) := by
                        simp [List.filter_cons, hok]
                      rw [hfil]
                      have hseq1 : cs1.seq_counter = rec.seq_start + rec.sample_count := by
                        rw [hs4, hw, if_pos rfl, hs1]
                      constructor
                      · rw [List.chain'_cons']
                        refine ⟨?_, ih1⟩
                        intro y hy
                        rw [ih2 y hy, hseq1]
                      · intro b hb
                        simp only [List.head?_cons, Option.mem_def,
                          Option.some.injEq] at hb
                        rw [← hb, hs1]

/-- C4 counterexample: at shutdown the final partial-chunk flush ignores
the `write_chunk_file` result; with 5 collected samples and a failing
write (`write_ok = false`) the sequence counter still advances from 100 to
105, contradicting "on write or rename failure ... the counter is
unchanged". -/
theorem final_flush_advances_seq_on_failure :
    (consumer_final_flush ⟨5, 240, 120, true, 100⟩ false).2
        = some ⟨100, 5, 120, false⟩ ∧
    (consumer_final_flush ⟨5, 240, 120, true, 100⟩ false).1.seq_counter = 105 ∧
    (consumer_final_flush ⟨5, 240, 120, true, 100⟩ false).1.seq_counter ≠ 100 :=
  ⟨rfl, rfl, by decide⟩

/-- C4 (amended): during the consumer loop the sequence counter advances
by exactly the chunk's sample count iff the commit succeeded (and never
otherwise), every commit record starts at the current counter, and the
`seq_start`s of successively committed (successful) chunks are contiguous;
the shutdown flush of a partial chunk, however, advances the counter by
the flushed sample count unconditionally, even when its write fails. -/
theorem seq_counter_advance_characterization :
    (∀ cs rb rr sc w cs' rb' orec,
      consumer_iteration cs rb rr sc w = some (cs', rb', orec) →
      (orec = none → cs'.seq_counter = cs.seq_counter) ∧
      (∀ rec, orec = some rec →
        rec.seq_start = cs.seq_counter ∧ rec.ok = w ∧
        cs'.seq_counter = (if w = true then cs.seq_counter + rec.sample_count
          else cs.seq_counter))) ∧
    (∀ cs w,
      ((consumer_final_flush cs w).2 = none →
        (consumer_final_flush cs w).1.seq_counter = cs.seq_counter) ∧
      (∀ rec, (consumer_final_flush cs w).2 = some rec →
        rec.seq_start = cs.seq_counter ∧ rec.ok = w ∧
        (consumer_final_flush cs w).1.seq_counter
          = cs.seq_counter + rec.sample_count)) ∧
    (∀ inputs cs rb cs2 rb2 recs,
      consumer_run cs rb inputs = some (cs2, rb2, recs) →
      List.Chain' (fun a b => b.seq_start = a.seq_start + a.sample_count)
        (recs.filter (fun r => r.ok)) ∧
      ∀ b ∈ (recs.filter (fun r => r.ok)).head?, b.seq_start = cs.seq_counter) := by
  refine ⟨?_, ?_, ?_⟩
  · intro cs rb rr sc w cs' rb' orec h
    obtain ⟨-, -, hcn, hcs, -⟩ :=
      consumer_iteration_characterize cs rb rr sc w cs' rb' orec h
    exact ⟨hcn, fun rec hrec => ⟨(hcs rec hrec).1, (hcs rec hrec).2.1,
      (hcs rec hrec).2.2.2.1⟩⟩
  · intro cs w
    unfold consumer_final_flush
    by_cases hc : cs.hasBuffer = true ∧ 0 < cs.samples_collected
    · rw [if_pos hc]
      refine ⟨?_, ?_⟩
      · intro hnone
        exact absurd hnone (by simp)
      · intro rec hrec
        have hrec2 : rec = ⟨cs.seq_counter, cs.samples_collected, cs.current_rate, w⟩ := by
          simpa using hrec.symm
        subst hrec2
        exact ⟨rfl, rfl, rfl⟩
    · rw [if_neg hc]
      exact ⟨fun _ => rfl, fun rec hrec => absurd hrec (by simp)⟩
  · intro inputs cs rb cs2 rb2 recs h
    exact consumer_run_contiguous inputs cs rb cs2 rb2 recs h

theorem seq_counter_advance_characterization_witness :
    (consumer_iteration ⟨0, 2, 1, true, 0⟩ ⟨20, fun _ => 0, 16, 0, 16, false, false⟩
        1 true true
      = some (⟨0, 2, 1, true, 2⟩, ⟨20, fun _ => 0, 16, 16, 0, false, false⟩,
          some ⟨0, 2, 1, true⟩)) ∧
    (⟨0, 2, 1, true, 2⟩ : ConsumerState).seq_counter
      = (if true = true then
          (⟨0, 2, 1, true, 0⟩ : ConsumerState).seq_counter
            + (⟨0, 2, (1 : ℚ), true⟩ : CommitRecord).sample_count
        else (⟨0, 2, 1, true, 0⟩ : ConsumerState).seq_counter) ∧
    (consumer_final_flush ⟨3, 240, 120, true, 50⟩ true).1.seq_counter
      = (⟨3, 240, 120, true, 50⟩ : ConsumerState).seq_counter
          + (⟨50, 3, (120 : ℚ), true⟩ : CommitRecord).sample_count ∧
    List.Chain' (fun a b => b.seq_start = a.seq_start + a.sample_count)
      (([⟨0, 2, (1 : ℚ), true⟩] : List CommitRecord).filter (fun r => r.ok)) := by
  have H := seq_counter_advance_characterization
  refine ⟨rfl, ?_, ?_, ?_⟩
  · exact ((H.1 ⟨0, 2, 1, true, 0⟩ ⟨20, fun _ => 0, 16, 0, 16, false, false⟩
      1 true true _ _ _ rfl).2 _ rfl).2.2
  · exact ((H.2.1 ⟨3, 240, 120, true, 50⟩ true).2 _ rfl).2.2
  · exact (H.2.2 [(1, true, true)] ⟨0, 2, 1, true, 0⟩
      ⟨20, fun _ => 0, 16, 0, 16, false, false⟩ ⟨0, 2, 1, true, 2⟩
      ⟨20, fun _ => 0, 16, 16, 0, false, false⟩ [⟨0, 2, 1, true⟩] rfl).1

/-- C10: the in-progress sample count never exceeds `samples_per_chunk`
(preserved by every consumer iteration, with the count reset after every
commit attempt and on every rate change); every regularly committed chunk
carries exactly `samples_per_chunk` samples; each ring-buffer read
requests exactly the remaining `(samples_per_chunk - samples_collected) × 8`
bytes and returns at most the requested length, so the chunk buffer is
never filled past its allocated `samples_per_chunk × 8` bytes. -/
theorem chunk_accumulation_invariant :
    (∀ cs rb rr sc w cs' rb' orec,
      cs.samples_collected ≤ cs.samples_per_chunk →
      consumer_iteration cs rb rr sc w = some (cs', rb', orec) →
      cs'.samples_collected ≤ cs'.samples_per_chunk ∧
      (∀ rec, orec = some rec → rec.sample_count = cs'.samples_per_chunk)) ∧
    (∀ rb len rb2 out, ring_buffer_read rb len = some (rb2, out) →
      out.length ≤ len) ∧
    (∀ rb c p rb2 out, c ≤ p →
      ring_buffer_read rb ((p - c) * 8) = some (rb2, out) →
      c * 8 + out.length ≤ p * 8) := by
  refine ⟨?_, ?_, ?_⟩
  · intro cs rb rr sc w cs' rb' orec hinv h
    obtain ⟨hc1, -, -, hcs, hci⟩ :=
      consumer_iteration_characterize cs rb rr sc w cs' rb' orec h
    refine ⟨hci hinv, ?_⟩
    intro rec hrec
    rw [(hcs rec hrec).2.2.1, hc1]
  · intro rb len rb2 out h
    exact ring_buffer_read_length rb len rb2 out h
  · intro rb c p rb2 out hcp h
    have := ring_buffer_read_length rb _ rb2 out h
    omega

theorem chunk_accumulation_invariant_witness :
    ((⟨0, 2, 1, true, 0⟩ : ConsumerState).samples_collected
        ≤ (⟨0, 2, 1, true, 0⟩ : ConsumerState).samples_per_chunk) ∧
    ((⟨0, 2, 1, true, 2⟩ : ConsumerState).samples_collected
        ≤ (⟨0, 2, 1, true, 2⟩ : ConsumerState).samples_per_chunk ∧
      ∀ rec, (some (⟨0, 2, (1 : ℚ), true⟩ : CommitRecord) = some rec) →
        rec.sample_count = (⟨0, 2, 1, true, 2⟩ : ConsumerState).samples_per_chunk) ∧
    ([0] : List ℕ).length ≤ 16 := by
  have H := chunk_accumulation_invariant
  refine ⟨by decide, ?_, ?_⟩
  · exact H.1 ⟨0, 2, 1, true, 0⟩ ⟨20, fun _ => 0, 16, 0, 16, false, false⟩
      1 true true ⟨0, 2, 1, true, 2⟩ ⟨20, fun _ => 0, 16, 16, 0, false, false⟩
      (some ⟨0, 2, 1, true⟩) (by decide) rfl
  · exact H.2.1 ⟨4, fun _ => 0, 1, 0, 1, false, false⟩ 16
      ⟨4, fun _ => 0, 1, 1, 0, false, false⟩ [0] rfl

/-- C8 counterexample: two different boot identities with the same
starting sequence produce the same final file name — the format string
`"%s/chunk_%llu_.bin"` does not mention the boot identity, so chunks from
different process lifetimes can collide. -/
theorem chunk_filename_boot_id_collision :
    (1 : ℕ) ≠ 2 ∧
    chunk_filename_final "DAD_Files" 1 7 = chunk_filename_final "DAD_Files" 2 7 :=
  ⟨by decide, rfl⟩

/-- C8 (amended): the temporary and final chunk file names encode only the
output directory and the starting sequence number; the boot identity does
not appear in them, so two chunks from different process lifetimes with
the same starting sequence share the same final name. -/
theorem chunk_filename_ignores_boot_identity (output_dir : String)
    (boot1 boot2 seq_start : ℕ) :
    chunk_filename_final output_dir boot1 seq_start
      = chunk_filename_final output_dir boot2 seq_start ∧
    chunk_filename_part output_dir boot1 seq_start
      = chunk_filename_part output_dir boot2 seq_start :=
  ⟨rfl, rfl⟩

/-- C9 counterexample: at rate `3/4` the consumer sizes the chunk as
`(uint32_t)(0.75 × 2) = 1` sample, while `round(0.75 × 2) = 2`; the code
truncates instead of rounding to the nearest integer. -/
theorem samples_per_chunk_not_round :
    samples_per_chunk_of_rate (3 / 4) = 1 ∧ spec_samplesPerChunk (3 / 4) = 2 ∧
    (1 : ℕ) ≠ 2 := by
  refine ⟨?_, ?_, by decide⟩
  · show (⌊(3 / 4 : ℚ) * CHUNK_DURATION_SEC⌋).toNat = 1
    rw [CHUNK_DURATION_SEC]
    have hf : ⌊(3 / 4 : ℚ) * 2⌋ = 1 := by
      rw [Int.floor_eq_iff]
      constructor <;> norm_num
    rw [hf]
    rfl
  · show round ((3 / 4 : ℚ) * CHUNK_DURATION_SEC) = 2
    rw [CHUNK_DURATION_SEC, round_eq]
    rw [Int.floor_eq_iff]
    constructor <;> norm_num

/-- C9 (amended): for every nonnegative rate the consumer sizes its chunk
as the truncation `samplesPerChunk = ⌊rate × CHUNK_DURATION_SEC⌋` (with
`CHUNK_DURATION_SEC = 2`), i.e. the unique integer `n` with
`n ≤ rate × 2 < n + 1`; and a consumer iteration that sees a changed rate
(or has no buffer yet) installs exactly this size. -/
theorem samples_per_chunk_truncates (rate : ℚ) (h : 0 ≤ rate) :
    ((samples_per_chunk_of_rate rate : ℚ) ≤ rate * CHUNK_DURATION_SEC ∧
      rate * CHUNK_DURATION_SEC < samples_per_chunk_of_rate rate + 1) ∧
    (∀ cs rb sc w cs' rb' orec,
      consumer_iteration cs rb rate sc w = some (cs', rb', orec) →
      (rate ≠ cs.current_rate ∨ cs.hasBuffer = false) →
      cs'.samples_per_chunk = samples_per_chunk_of_rate rate) := by
  have h2 : (0 : ℚ) ≤ rate * CHUNK_DURATION_SEC := by
    rw [CHUNK_DURATION_SEC]
    exact mul_nonneg h (by norm_num)
  have hint : (0 : ℤ) ≤ ⌊rate * CHUNK_DURATION_SEC⌋ := Int.floor_nonneg.mpr h2
  have hcast : ((samples_per_chunk_of_rate rate : ℚ))
      = ((⌊rate * CHUNK_DURATION_SEC⌋ : ℤ) : ℚ) := by
    rw [samples_per_chunk_of_rate]
    exact_mod_cast congrArg (fun z : ℤ => (z : ℚ)) (Int.toNat_of_nonneg hint)
  refine ⟨⟨?_, ?_⟩, ?_⟩
  · rw [hcast]
    exact Int.floor_le _
  · rw [hcast]
    exact Int.lt_floor_add_one _
  · intro cs rb sc w cs' rb' orec hstep hcond
    obtain ⟨hc1, -, -, -, -⟩ :=
      consumer_iteration_characterize cs rb rate sc w cs' rb' orec hstep
    rw [hc1]
    unfold rate_adjusted
    rw [if_pos hcond]

theorem samples_per_chunk_truncates_witness :
    (0 : ℚ) ≤ 120 ∧
    ((samples_per_chunk_of_rate 120 : ℚ) ≤ 120 * CHUNK_DURATION_SEC ∧
      120 * CHUNK_DURATION_SEC < samples_per_chunk_of_rate 120 + 1) ∧
    (⟨0, samples_per_chunk_of_rate 120, 120, true, 0⟩ : ConsumerState).samples_per_chunk
      = samples_per_chunk_of_rate 120 := by
  refine ⟨by norm_num, (samples_per_chunk_truncates 120 (by norm_num)).1, ?_⟩
  exact (samples_per_chunk_truncates 120 (by norm_num)).2
    ⟨0, 0, 1, false, 0⟩ ⟨4, fun _ => 0, 0, 0, 0, false, false⟩ false true
    ⟨0, samples_per_chunk_of_rate 120, 120, true, 0⟩
    ⟨4, fun _ => 0, 0, 0, 0, false, false⟩ none rfl (Or.inl (by decide))

/-- C6: the STATUS handler never completes, so no reply is ever produced.
`handle_command` takes `g_state_mutex` before dispatching (line 313) and
`send_status` acquires the same non-recursive mutex again (line 265): the
thread deadlocks on itself for every STATUS command. -/
theorem status_command_deadlocks (atof : List Char → ℚ) (g : ControlGlobals)
    (ring_avail_bytes : ℕ) (h : g.state_mutex_held = false) :
    handle_command atof ("STATUS".toList) g ring_avail_bytes = none := by
  obtain ⟨ce, sr, sq, held⟩ := g
  cases held with
  | false => rfl
  | true => exact absurd h (by simp)

theorem status_command_deadlocks_witness :
    ((⟨true, 120, 5, false⟩ : ControlGlobals)).state_mutex_held = false ∧
    handle_command (fun _ => 0) ("STATUS".toList) ⟨true, 120, 5, false⟩ 16 = none :=
  ⟨rfl, status_command_deadlocks (fun _ => 0) ⟨true, 120, 5, false⟩ 16 rfl⟩

/-- C7: for every SET_RATE command handled with the state mutex free: a
non-empty argument parsing to a rate `r` with `0 < r ≤ 100000` sets
`targetRate := r` (all other state unchanged, mutex released) and replies
OK; an out-of-range argument replies an error with the state unchanged; a
missing or empty argument replies an error with the state unchanged. -/
theorem set_rate_command_spec (atof : List Char → ℚ) (command : List Char)
    (g : ControlGlobals) (ring_avail_bytes : ℕ)
    (hheld : g.state_mutex_held = false)
    (hcmd : (split_at_space (strip_trailing command)).1.map to_upper
      = "SET_RATE".toList) :
    (∀ a, (split_at_space (strip_trailing command)).2 = some a → a ≠ [] →
      (0 < atof a ∧ atof a ≤ 100000 →
        handle_command atof command g ring_avail_bytes
          = some ({ g with scan_rate := atof a }, .okSetRate (atof a))) ∧
      (¬ (0 < atof a ∧ atof a ≤ 100000) →
        handle_command atof command g ring_avail_bytes
          = some (g, .errInvalidRate))) ∧
    ((split_at_space (strip_trailing command)).2 = none →
      handle_command atof command g ring_avail_bytes = some (g, .errNoValue)) ∧
    (∀ a, (split_at_space (strip_trailing command)).2 = some a → a = [] →
      handle_command atof command g ring_avail_bytes = some (g, .errNoValue)) := by
  obtain ⟨ce, sr, sq, held⟩ := g
  cases held with
  | true => exact absurd hheld (by simp)
  | false =>
      refine ⟨?_, ?_, ?_⟩
      · intro a ha hne
        constructor
        · intro hrange
          simp only [handle_command, dispatch_command, hcmd, ha,
            lock_state_mutex, unlock_state_mutex]
          simp [hne, hrange]
        · intro hrange
          simp only [handle_command, dispatch_command, hcmd, ha,
            lock_state_mutex, unlock_state_mutex]
          simp [hne, hrange]
      · intro ha
        simp only [handle_command, dispatch_command, hcmd, ha,
          lock_state_mutex, unlock_state_mutex]
        simp
      · intro a ha hae
        subst hae
        simp only [handle_command, dispatch_command, hcmd, ha,
          lock_state_mutex, unlock_state_mutex]
        simp

theorem set_rate_command_spec_witness :
    ((⟨false, 120, 0, false⟩ : ControlGlobals)).state_mutex_held = false ∧
    (split_at_space (strip_trailing ("SET_RATE 250".toList))).1.map to_upper
      = "SET_RATE".toList ∧
    handle_command (fun _ => (250 : ℚ)) ("SET_RATE 250".toList)
        ⟨false, 120, 0, false⟩ 0
      = some (⟨false, 250, 0, false⟩, .okSetRate 250) ∧
    handle_command (fun _ => (250 : ℚ)) ("SET_RATE".toList)
        ⟨false, 120, 0, false⟩ 0
      = some (⟨false, 120, 0, false⟩, .errNoValue) := by
  refine ⟨rfl, by decide, ?_, ?_⟩
  · exact ((set_rate_command_spec (fun _ => (250 : ℚ)) ("SET_RATE 250".toList)
      ⟨false, 120, 0, false⟩ 0 rfl (by decide)).1 ("250".toList) (by decide)
      (by decide)).1 (by decide)
  · exact (set_rate_command_spec (fun _ => (250 : ℚ)) ("SET_RATE".toList)
      ⟨false, 120, 0, false⟩ 0 rfl (by decide)).2.1 (by decide)
